import Mathlib

/-!
Verification of the agent decision core of a grid-based snake game.

The repository contains several near-duplicate game variants (ai.py,
allagents.py, learning.py, reflexagent.py, simplereflex.py).  All of them
share the same geometry: a 1000 by 800 pixel window, 40-pixel grid cells,
a snake stored as the two parallel coordinate lists `x` and `y` together
with a `length` field and a `direction` string, and an apple cell.

This file gives a shallow embedding of the data model and of the agent
procedures that the specification's claims are about, and proves or
refutes each claim against that embedding.  Python integers are embedded
as `Int`, Python floor division `//` as `Int.fdiv`, Python float
arithmetic on the Q-learning side as exact rational arithmetic (`Rat`);
float rounding is not modelled.  Stateful methods become pure functions
from the touched state to the new state, and the one method that raises
an exception on every call is embedded in `Except String`.
-/

namespace SnakeSpec

/-- Grid cell size in pixels (`SIZE = 40` in every variant). -/
def SIZE : Int := 40

/-- Window width in pixels (`set_mode((1000, 800))` in every variant). -/
def SCREEN_W : Int := 1000

/-- Window height in pixels. -/
def SCREEN_H : Int := 800

/-- The four movement directions (the Python code uses the strings
`'left'`, `'right'`, `'up'`, `'down'`). -/
inductive Dir where
  | left
  | right
  | up
  | down
deriving DecidableEq, Repr

/-- A pixel coordinate pair. -/
structure Cell where
  x : Int
  y : Int
deriving DecidableEq, Repr

/-- Coordinate delta of one step in a direction, x component. -/
def dirDX : Dir → Int
  | Dir.left => -SIZE
  | Dir.right => SIZE
  | Dir.up => 0
  | Dir.down => 0

/-- Coordinate delta of one step in a direction, y component. -/
def dirDY : Dir → Int
  | Dir.left => 0
  | Dir.right => 0
  | Dir.up => -SIZE
  | Dir.down => SIZE

/-- The cell one grid step from `c` in direction `d`. -/
def stepCell (c : Cell) (d : Dir) : Cell :=
  Cell.mk (c.x + dirDX d) (c.y + dirDY d)

/-- The direction opposite to `d` (the "is-reverse-of" relation). -/
def reverseDir : Dir → Dir
  | Dir.left => Dir.right
  | Dir.right => Dir.left
  | Dir.up => Dir.down
  | Dir.down => Dir.up

/-- The snake state shared by all variants: a current heading, a segment
count `length`, and the two parallel coordinate lists `x` and `y`
(index 0 is the head). -/
structure Snake where
  direction : Dir
  length : Nat
  x : List Int
  y : List Int
deriving DecidableEq, Repr

/-- A snake state is consistent when both coordinate lists have exactly
`length` entries (Python would raise `IndexError` otherwise). -/
def Snake.wf (s : Snake) : Prop :=
  s.x.length = s.length ∧ s.y.length = s.length

/-- `Snake.move_left`: turn left unless currently heading right. -/
def move_left (s : Snake) : Snake :=
  if s.direction ≠ Dir.right then { s with direction := Dir.left } else s

/-- `Snake.move_right`: turn right unless currently heading left. -/
def move_right (s : Snake) : Snake :=
  if s.direction ≠ Dir.left then { s with direction := Dir.right } else s

/-- `Snake.move_up`: turn up unless currently heading down. -/
def move_up (s : Snake) : Snake :=
  if s.direction ≠ Dir.down then { s with direction := Dir.up } else s

/-- `Snake.move_down`: turn down unless currently heading up. -/
def move_down (s : Snake) : Snake :=
  if s.direction ≠ Dir.up then { s with direction := Dir.down } else s

/-- The body-shift loop of `Snake.walk`:
`for i in range(self.length - 1, 0, -1): a[i] = a[i-1]`.
`shiftLoop n a` performs the assignments `a[i] = a[i-1]` for
`i = n, n-1, ..., 1` in that (descending) order, so each assignment
reads the not-yet-overwritten predecessor. -/
def shiftLoop : Nat → List Int → List Int
  | 0, a => a
  | n + 1, a => shiftLoop n (a.set (n + 1) (a.getD n 0))

/-- `Snake.walk`: shift every non-head segment to its predecessor's
position, then advance the head one `SIZE` step in the current
direction. -/
def walk (s : Snake) : Snake :=
  let xs := shiftLoop (s.length - 1) s.x
  let ys := shiftLoop (s.length - 1) s.y
  { s with
    x := xs.set 0 (xs.getD 0 0 + dirDX s.direction)
    y := ys.set 0 (ys.getD 0 0 + dirDY s.direction) }

/-- `Snake.increase_length`: bump `length` and append the placeholder
coordinates `-1, -1`. -/
def increase_length (s : Snake) : Snake :=
  { s with length := s.length + 1, x := s.x ++ [-1], y := s.y ++ [-1] }

/-- `Game.is_collision` (ai.py / allagents.py, identical in the other
variants): a 40-pixel-window overlap test. -/
def is_collision (x1 y1 x2 y2 : Int) : Bool :=
  decide (x1 ≥ x2) && decide (x1 < x2 + SIZE) && decide (y1 ≥ y2) && decide (y1 < y2 + SIZE)

/-- Body cell at index `i` of a snake (reading the parallel lists the way
the Python index loops do). -/
def bodyCell (s : Snake) (i : Nat) : Cell :=
  Cell.mk (s.x.getD i 0) (s.y.getD i 0)

/-- `Game.self_collision`: scan body indices `3 .. length-1`
(`for i in range(3, self.snake.length)`) for a head overlap. -/
def self_collision (s : Snake) : Bool :=
  (List.range' 3 (s.length - 3)).any fun i =>
    is_collision (s.x.getD 0 0) (s.y.getD 0 0) (s.x.getD i 0) (s.y.getD i 0)

/-- Variant of the self-collision scan that starts at index `k` instead
of the source's hard-coded 3; used to compare the source's scan with the
scan from index 1 that the claims mention. -/
def selfCollisionScanFrom (k : Nat) (s : Snake) : Bool :=
  (List.range' k (s.length - k)).any fun i =>
    is_collision (s.x.getD 0 0) (s.y.getD 0 0) (s.x.getD i 0) (s.y.getD i 0)

/-- `Game._get_potential_head` (identical in ai.py and allagents.py):
the head cell one step in the queried direction. -/
def get_potential_head (s : Snake) (d : Dir) : Cell :=
  stepCell (bodyCell s 0) d

/-- `Game._is_potential_move_colliding` (ai.py / allagents.py): out of
the 1000 by 800 window, or overlapping any body segment `1 .. length-1`. -/
def is_potential_move_colliding (s : Snake) (c : Cell) : Bool :=
  if ¬ (0 ≤ c.x ∧ c.x < SCREEN_W ∧ 0 ≤ c.y ∧ c.y < SCREEN_H) then true
  else
    (List.range' 1 (s.length - 1)).any fun i =>
      is_collision c.x c.y (s.x.getD i 0) (s.y.getD i 0)

/-! ### Walk behaviour (claim C8) and the self-collision scan (claim C9) -/

/-- The operations the game loop can apply to a snake between renders:
the four turn requests, a growth step, and a walk step. -/
inductive SnakeOp where
  | opLeft
  | opRight
  | opUp
  | opDown
  | opGrow
  | opWalk
deriving DecidableEq, Repr

/-- Apply one operation. -/
def applyOp (s : Snake) : SnakeOp → Snake
  | SnakeOp.opLeft => move_left s
  | SnakeOp.opRight => move_right s
  | SnakeOp.opUp => move_up s
  | SnakeOp.opDown => move_down s
  | SnakeOp.opGrow => increase_length s
  | SnakeOp.opWalk => walk s

/-- The initial snake of every variant: length 1 at pixel (40, 40),
heading down. -/
def initialSnake : Snake :=
  { direction := Dir.down, length := 1, x := [40], y := [40] }

/-- Run a list of operations from the initial snake. -/
def runOps (ops : List SnakeOp) : Snake :=
  ops.foldl applyOp initialSnake

/-! ### allagents.py utility-based agent (claim C5) -/

namespace Allagents

/-- The game state the allagents.py agents read: the live snake and the
apple cell (the 1000 by 800 surface is fixed). -/
structure AGame where
  snake : Snake
  apple : Cell
deriving DecidableEq, Repr

/-- `Game._calculate_manhattan_distance`:
`abs(x2 - x1) // SIZE + abs(y2 - y1) // SIZE`. -/
def calculate_manhattan_distance (x1 y1 x2 y2 : Int) : Int :=
  (|x2 - x1|).fdiv SIZE + (|y2 - y1|).fdiv SIZE

/-- `UtilityBasedAgent.count_escape_routes`.  Note that the source
ignores its `x, y` arguments and counts the safe moves from the
*current* head instead; the embedding reproduces that. -/
def count_escape_routes (g : AGame) (nx ny : Int) : Int :=
  Int.ofNat (([Dir.left, Dir.right, Dir.up, Dir.down]).countP fun d =>
    ! is_potential_move_colliding g.snake (get_potential_head g.snake d))

/-- Non-colliding branch of `UtilityBasedAgent.calculate_utility`:
apple distance (weight -20), escape routes (weight 10), wall distance
(weight 3), +2 for repeating the previous choice, +5 for keeping the
heading, and a -20 tail penalty for snakes longer than 10. -/
def utilityScore (g : AGame) (prev : Option Dir) (d : Dir) : Int :=
  let n := get_potential_head g.snake d
  let appleDistance := calculate_manhattan_distance n.x n.y g.apple.x g.apple.y
  let escapeRoutes := count_escape_routes g n.x n.y
  let minWallDistance := (min (min (min n.x (SCREEN_W - n.x)) n.y) (SCREEN_H - n.y)).fdiv SIZE
  let u := 0 - appleDistance * 20 + escapeRoutes * 10 + minWallDistance * 3
  let u := u + (if prev = some d then 2 else 0)
  let u := u + (if d = g.snake.direction then 5 else 0)
  if 10 < g.snake.length then
    let tailX := g.snake.x.getD (g.snake.x.length - 1) 0
    let tailY := g.snake.y.getD (g.snake.y.length - 1) 0
    if calculate_manhattan_distance n.x n.y tailX tailY < 3 then u - 20 else u
  else u

/-- `UtilityBasedAgent.calculate_utility`: -10000 for an immediately
colliding move, otherwise the weighted score. -/
def calculate_utility (g : AGame) (prev : Option Dir) (d : Dir) : Int :=
  if is_potential_move_colliding g.snake (get_potential_head g.snake d) then -10000
  else utilityScore g prev d

/-- The candidate list of `UtilityBasedAgent.make_move`: all four
directions minus the reverse of the current heading. -/
def utilityCandidates (cur : Dir) : List Dir :=
  ([Dir.left, Dir.right, Dir.up, Dir.down]).erase (reverseDir cur)

/-- Direction chosen by `UtilityBasedAgent.make_move`: strict-improvement
argmax of `calculate_utility` over the candidates, first candidate wins
ties.  (The candidate list is never empty; the `[]` branch is dead.) -/
def utility_make_move (g : AGame) (prev : Option Dir) : Dir :=
  match utilityCandidates g.snake.direction with
  | [] => g.snake.direction
  | d0 :: rest =>
    (rest.foldl
      (fun acc d =>
        if calculate_utility g prev d > acc.2 then (d, calculate_utility g prev d) else acc)
      (d0, calculate_utility g prev d0)).1

/-- Concrete game refuting C5 as stated: the snake turned right while
running along the top wall with its body curled below; right, up and
down all collide, only the (unexecutable) reversal `left` is free. -/
def utilityCounterGame : AGame :=
  AGame.mk
    (Snake.mk Dir.right 8 [960, 960, 920, 880, 880, 880, 920, 960]
      [40, 0, 0, 0, 40, 80, 80, 80])
    (Cell.mk 120 120)

/-- Concrete open position used to witness C5's amended theorem. -/
def utilityOpenGame : AGame :=
  AGame.mk (Snake.mk Dir.down 1 [480] [400]) (Cell.mk 120 120)

end Allagents

/-! ### learning.py QLearningAgent (claims C2, C3, C4) -/

namespace Learning

/-- Discretized state of learning.py's `QLearningAgent.get_state`:
`(apple_rel_x_disc, apple_rel_y_disc, dangers, current_direction)` with
`dangers` a 4-tuple of 0/1 flags in the order up, down, left, right and
the direction encoded as 0=up, 1=down, 2=left, 3=right. -/
structure LState where
  ax : Int
  ay : Int
  dangers : List Nat
  dir : Fin 4
deriving DecidableEq, Repr

/-- A Q-table row `[0.0] * 4` (one value per action); embedded as an
exact quadruple since rows always have exactly four entries. -/
abbrev Row : Type := Rat × Rat × Rat × Rat

/-- The zero row used to initialize new states. -/
def zeroRow : Row := (0, 0, 0, 0)

/-- Read entry `a` of a row. -/
def rowGet (r : Row) : Fin 4 → Rat
  | ⟨0, _⟩ => r.1
  | ⟨1, _⟩ => r.2.1
  | ⟨2, _⟩ => r.2.2.1
  | ⟨3, _⟩ => r.2.2.2

/-- Write entry `a` of a row. -/
def rowSet (r : Row) (a : Fin 4) (v : Rat) : Row :=
  match a with
  | ⟨0, _⟩ => (v, r.2.1, r.2.2.1, r.2.2.2)
  | ⟨1, _⟩ => (r.1, v, r.2.2.1, r.2.2.2)
  | ⟨2, _⟩ => (r.1, r.2.1, v, r.2.2.2)
  | ⟨3, _⟩ => (r.1, r.2.1, r.2.2.1, v)

/-- The Q-table `state -> [q0, q1, q2, q3]`, embedded as an insertion
ordered association list (a Python dict). -/
abbrev Table : Type := List (LState × Row)

/-- Dict membership / retrieval. -/
def findRow : Table → LState → Option Row
  | [], _ => none
  | (s', r) :: rest, s => if s' = s then some r else findRow rest s

/-- `if state not in self.q_table: self.q_table[state] = [0.0] * 4`. -/
def ensureRow (t : Table) (s : LState) : Table :=
  match findRow t s with
  | some _ => t
  | none => t ++ [(s, zeroRow)]

/-- Row of a state, defaulting to zeros for an absent state. -/
def getQRow (t : Table) (s : LState) : Row :=
  (findRow t s).getD zeroRow

/-- In-place row replacement `self.q_table[state] = row` for a present
state (a no-op on an absent state; the code ensures presence first). -/
def setRow : Table → LState → Row → Table
  | [], _, _ => []
  | (s', r) :: rest, s, nr => if s' = s then (s', nr) :: rest else (s', r) :: setRow rest s nr

/-- learning.py's action list `['up', 'down', 'left', 'right']`
(and `direction_map_rev`), as index-to-direction decoding. -/
def dirOfIdx : Fin 4 → Dir
  | ⟨0, _⟩ => Dir.up
  | ⟨1, _⟩ => Dir.down
  | ⟨2, _⟩ => Dir.left
  | ⟨3, _⟩ => Dir.right

/-- `learning_rate` default 0.1. -/
def learning_rate : Rat := 1 / 10

/-- `discount_factor` default 0.9. -/
def discount_factor : Rat := 9 / 10

/-- `epsilon_decay` default 0.999. -/
def epsilon_decay : Rat := 999 / 1000

/-- `epsilon_min` default 0.01. -/
def epsilon_min : Rat := 1 / 100

/-- `QLearningAgent.get_valid_actions_for_state`: the actions that are
not a U-turn with respect to the state's recorded direction and whose
danger bit in the state is 0. -/
def get_valid_actions_for_state (s : LState) : List (Fin 4) :=
  (List.finRange 4).filter fun i =>
    ! decide (dirOfIdx i = reverseDir (dirOfIdx s.dir)) && (s.dangers.getD i.val 0 == 0)

/-- Python's `max` over a non-empty list (0 for `[]`, a case the code
guards against before calling `max`). -/
def listMaxQ : List Rat → Rat
  | [] => 0
  | [a] => a
  | a :: rest => max a (listMaxQ rest)

/-- `QLearningAgent.update_q_table(state, action, reward, next_state,
done)`: ensure both rows exist, compute the target (plain `reward` when
`done`, otherwise `reward + gamma * max` over the Q-values of the valid
actions from `next_state`, 0 if none is valid), and move the stored
value a `learning_rate` fraction toward the target. -/
def update_q_table (t : Table) (s : LState) (a : Fin 4) (r : Rat) (s' : LState)
    (done : Bool) : Table :=
  let t2 := ensureRow (ensureRow t s) s'
  let currentQ := rowGet (getQRow t2 s) a
  let targetQ :=
    if done then r
    else
      let valid := get_valid_actions_for_state s'
      let maxFutureQ := if valid.isEmpty then 0
        else listMaxQ (valid.map fun i => rowGet (getQRow t2 s') i)
      r + discount_factor * maxFutureQ
  setRow t2 s (rowSet (getQRow t2 s) a (currentQ + learning_rate * (targetQ - currentQ)))

/-- `QLearningAgent.get_reward(old_state, action, new_state, game_over,
ate_apple)`: -500 on game over, +1000 on apple, otherwise squared
Euclidean distance shaping (+10 closer, -15 farther, -5 equal) computed
from the head, apple and the potential head of the executed action.
(The reads of `old_state`/`new_state` components in the source are dead
assignments and are omitted.) -/
def get_reward (head apple : Cell) (a : Fin 4) (game_over ate_apple : Bool) : Rat :=
  if game_over then -500
  else if ate_apple then 1000
  else
    let oldDistSq := (head.x - apple.x) * (head.x - apple.x)
      + (head.y - apple.y) * (head.y - apple.y)
    let nh := stepCell head (dirOfIdx a)
    let newDistSq := (nh.x - apple.x) * (nh.x - apple.x)
      + (nh.y - apple.y) * (nh.y - apple.y)
    if newDistSq < oldDistSq then 10
    else if newDistSq > oldDistSq then -15
    else -5

/-- The per-episode epsilon decay of `QLearningAgent.train_episode`:
`if self.epsilon > self.epsilon_min: self.epsilon *= self.epsilon_decay`. -/
def epsilon_decay_step (e : Rat) : Rat :=
  if e > epsilon_min then e * epsilon_decay else e

end Learning

/-! ### allagents.py LearningAgent (claims C2, C3, C4, C10) -/

namespace AllagentsRL

open Allagents

/-- Discretized state of allagents.py's `LearningAgent.get_state`:
`(apple_dx, apple_dy, dangers, length_category, tail_distance_discrete,
wall_distance_discrete)` with `dangers` a 4-tuple of 0/1 flags in the
order left, right, up, down. -/
structure ALState where
  adx : Int
  ady : Int
  dangers : List Nat
  lengthCat : Nat
  tailDist : Int
  wallDist : Int
deriving DecidableEq, Repr

/-- The Q-table of allagents.py's learner: a dict keyed by
`(state, action)` pairs with action indices 0=left, 1=right, 2=up,
3=down. -/
abbrev AQTable : Type := List ((ALState × Fin 4) × Rat)

/-- `LearningAgent.get_q_value`: `self.q_table.get((state, action), 0.0)`. -/
def aGetQ : AQTable → ALState × Fin 4 → Rat
  | [], _ => 0
  | (k, v) :: rest, key => if k = key then v else aGetQ rest key

/-- Dict assignment `self.q_table[(state, action)] = v`. -/
def aSetQ : AQTable → ALState × Fin 4 → Rat → AQTable
  | [], key, v => [(key, v)]
  | (k, w) :: rest, key, v => if k = key then (k, v) :: rest else (k, w) :: aSetQ rest key v

/-- allagents.py's action list `['left', 'right', 'up', 'down']`. -/
def dirOfAlIdx : Fin 4 → Dir
  | ⟨0, _⟩ => Dir.left
  | ⟨1, _⟩ => Dir.right
  | ⟨2, _⟩ => Dir.up
  | ⟨3, _⟩ => Dir.down

/-- `learning_rate = 0.1`. -/
def al_learning_rate : Rat := 1 / 10

/-- `discount_factor = 0.95`. -/
def al_discount_factor : Rat := 19 / 20

/-- `epsilon_decay = 0.99`. -/
def al_epsilon_decay : Rat := 99 / 100

/-- `min_epsilon = 0.01`. -/
def al_min_epsilon : Rat := 1 / 100

/-- Names bound in the local scope of
`LearningAgent.update_q_table` (its parameters and the names it
assigns); Python resolves a read of an unlisted name through the module
globals and builtins. -/
def update_q_table_local_names : List String :=
  ["self", "old_state", "action", "reward", "new_state",
   "old_q_value", "future_q_value", "new_q_value"]

/-- Module-level names of allagents.py (imports, constants and the six
classes).  Python's builtins also do not define a name `state`. -/
def allagents_module_globals : List String :=
  ["pygame", "time", "random", "math", "deque", "np",
   "SIZE", "BACKGROUND_COLOR", "Apple", "Snake", "Game", "SimpleAgent",
   "ModelBasedAgent", "GoalBasedAgent", "UtilityBasedAgent", "LearningAgent"]

/-- Whether the name `state`, read by the final statement
`self.q_table[(state, action)] = new_q_value`, resolves in the scope of
`LearningAgent.update_q_table`.  (It does not: the parameter is named
`old_state`.) -/
def state_name_resolves : Bool :=
  update_q_table_local_names.contains "state"
    || allagents_module_globals.contains "state"

/-- `LearningAgent.update_q_table(old_state, action, reward, new_state)`:
computes the new Q-value (max over all four actions, no terminal case)
and then stores it under the key `(state, action)`.  Since `state` is
unbound in that scope, the store raises `NameError`; the `.ok` branch
(which would store under the intended key) is dead and models what the
line would do if the name resolved to `old_state`. -/
def al_update_q_table (q : AQTable) (old_state : ALState) (action : Fin 4) (reward : Rat)
    (new_state : ALState) : Except String AQTable :=
  let old_q_value := aGetQ q (old_state, action)
  let future_q_value := Learning.listMaxQ
    ((List.finRange 4).map fun a => aGetQ q (new_state, a))
  let new_q_value := old_q_value
    + al_learning_rate * (reward + al_discount_factor * future_q_value - old_q_value)
  if state_name_resolves then Except.ok (aSetQ q (old_state, action) new_q_value)
  else Except.error "NameError: name state is not defined"

/-- `LearningAgent.get_reward`: 100 on a score increase else -1 step
penalty, plus an approach bonus `max(0, 2 - distance * 0.5)`, minus 5
near a wall, minus 5 near the tail for snakes longer than 5.  Returns
the reward together with the updated `last_score`. -/
def al_get_reward (g : AGame) (last_score : Int) : Rat × Int :=
  let current_score : Int := (g.snake.length : Int) - 1
  let reward : Rat := if current_score > last_score then 100 else -1
  let head := bodyCell g.snake 0
  let distance := calculate_manhattan_distance head.x head.y g.apple.x g.apple.y
  let reward := reward + max 0 (2 - (distance : Rat) * (1 / 2))
  let minWallDistance :=
    (min (min (min head.x (SCREEN_W - head.x)) head.y) (SCREEN_H - head.y)).fdiv SIZE
  let reward := if minWallDistance < 2 then reward - 5 else reward
  let reward :=
    if 5 < g.snake.length then
      let tailX := g.snake.x.getD (g.snake.x.length - 1) 0
      let tailY := g.snake.y.getD (g.snake.y.length - 1) 0
      if calculate_manhattan_distance head.x head.y tailX tailY < 3 then reward - 5
      else reward
    else reward
  (reward, current_score)

/-- `LearningAgent.get_state`. -/
def al_get_state (g : AGame) : ALState :=
  let head := bodyCell g.snake 0
  let tailX := g.snake.x.getD (g.snake.x.length - 1) 0
  let tailY := g.snake.y.getD (g.snake.y.length - 1) 0
  let adx : Int := if g.apple.x > head.x then 1 else if g.apple.x < head.x then -1 else 0
  let ady : Int := if g.apple.y > head.y then 1 else if g.apple.y < head.y then -1 else 0
  let tailDistance := calculate_manhattan_distance head.x head.y tailX tailY
  let tailDD := min (tailDistance.fdiv SIZE) 3
  let wallDistance :=
    (min (min (min head.x (SCREEN_W - head.x)) head.y) (SCREEN_H - head.y)).fdiv SIZE
  let wallDD := min wallDistance 3
  let dangers := ([Dir.left, Dir.right, Dir.up, Dir.down]).map fun d =>
    if is_potential_move_colliding g.snake (get_potential_head g.snake d) then 1 else 0
  ALState.mk adx ady dangers (min (g.snake.length / 5) 3) tailDD wallDD

/-- Legal actions offered by `choose_action`/`get_best_action`: all four
indices minus the reversal of the current heading. -/
def alLegalActions (cur : Dir) : List (Fin 4) :=
  match cur with
  | Dir.left => ([0, 1, 2, 3] : List (Fin 4)).erase 1
  | Dir.right => ([0, 1, 2, 3] : List (Fin 4)).erase 0
  | Dir.up => ([0, 1, 2, 3] : List (Fin 4)).erase 3
  | Dir.down => ([0, 1, 2, 3] : List (Fin 4)).erase 2

/-- `LearningAgent.get_best_action`: strict-improvement argmax of the
stored Q-values over the legal actions, first action wins ties. -/
def al_get_best_action (q : AQTable) (state : ALState) (cur : Dir) : Fin 4 :=
  match alLegalActions cur with
  | [] => 0
  | a0 :: rest =>
    (rest.foldl
      (fun acc a => if aGetQ q (state, a) > acc.2 then (a, aGetQ q (state, a)) else acc)
      (a0, aGetQ q (state, a0))).1

/-- `LearningAgent.choose_action`, with the two random draws passed in:
`randExplore` models `random.random() < self.epsilon` and `randPick`
selects the index for `random.choice`. -/
def al_choose_action (q : AQTable) (state : ALState) (cur : Dir)
    (randExplore : Bool) (randPick : Nat) : Fin 4 :=
  if randExplore then
    match alLegalActions cur with
    | [] => 0
    | a0 :: rest => (a0 :: rest).getD (randPick % (a0 :: rest).length) 0
  else al_get_best_action q state cur

/-- Turn execution (`self.game.snake.move_left()` etc.). -/
def execMove (s : Snake) : Dir → Snake
  | Dir.left => move_left s
  | Dir.right => move_right s
  | Dir.up => move_up s
  | Dir.down => move_down s

/-- `LearningAgent.make_move`: compute the current state and an
epsilon-greedy action; if a previous state exists, compute the reward
and update the Q-table (which raises `NameError`); otherwise execute the
chosen move (falling back to the first safe direction if the chosen one
collides) and decay epsilon.  Returns the new snake, table, epsilon, and
the remembered state/action/score. -/
def al_make_move (g : AGame) (q : AQTable) (eps : Rat) (last_state : Option ALState)
    (last_action : Fin 4) (last_score : Int) (randExplore : Bool) (randPick : Nat) :
    Except String (Snake × AQTable × Rat × Option ALState × Fin 4 × Int) :=
  let current_state := al_get_state g
  let action := al_choose_action q current_state g.snake.direction randExplore randPick
  let afterUpdate : Except String (AQTable × Int) :=
    match last_state with
    | some ls =>
      let rw := al_get_reward g last_score
      (al_update_q_table q ls last_action rw.1 current_state).map fun q2 => (q2, rw.2)
    | none => Except.ok (q, last_score)
  afterUpdate.bind fun qsc =>
    let direction := dirOfAlIdx action
    let nxt := get_potential_head g.snake direction
    let moved : Except String (Snake × AQTable) :=
      if is_potential_move_colliding g.snake nxt then
        (match last_state with
         | some ls => al_update_q_table qsc.1 ls last_action (-50) current_state
         | none => Except.ok qsc.1).map fun q3 =>
          match ([Dir.left, Dir.right, Dir.up, Dir.down]).find? (fun d =>
            ! is_potential_move_colliding g.snake (get_potential_head g.snake d)) with
          | some d => (execMove g.snake d, q3)
          | none => (g.snake, q3)
      else Except.ok (execMove g.snake direction, qsc.1)
    moved.map fun sq =>
      (sq.1, sq.2, max al_min_epsilon (eps * al_epsilon_decay),
        some current_state, action, qsc.2)

/-- The per-move epsilon update at the end of `LearningAgent.make_move`:
`self.epsilon = max(self.min_epsilon, self.epsilon * self.epsilon_decay)`. -/
def al_epsilon_step (e : Rat) : Rat :=
  max al_min_epsilon (e * al_epsilon_decay)

end AllagentsRL

/-! ### simplereflex.py tabular learner (claim C2) -/

namespace SimpleReflexRL

/-- State tuple of simplereflex.py's `Game._get_state`: four
apple-direction flags, four danger flags (left, right, up, down) and
the current direction. -/
structure SRState where
  appleLeft : Bool
  appleRight : Bool
  appleUp : Bool
  appleDown : Bool
  dangerLeft : Bool
  dangerRight : Bool
  dangerUp : Bool
  dangerDown : Bool
  dir : Dir
deriving DecidableEq, Repr

/-- Q-table keyed by `(state, action)` with string actions. -/
abbrev SQTable : Type := List ((SRState × Dir) × Rat)

/-- `self.q_table.get((state, action), 0)`. -/
def sGetQ : SQTable → SRState × Dir → Rat
  | [], _ => 0
  | (k, v) :: rest, key => if k = key then v else sGetQ rest key

/-- Dict assignment `self.q_table[(state, action)] = v`. -/
def sSetQ : SQTable → SRState × Dir → Rat → SQTable
  | [], key, v => [(key, v)]
  | (k, w) :: rest, key, v => if k = key then (k, v) :: rest else (k, w) :: sSetQ rest key v

/-- `self.alpha = 0.1`. -/
def sr_alpha : Rat := 1 / 10

/-- `self.gamma = 0.9`. -/
def sr_gamma : Rat := 9 / 10

/-- `Game._update_q_table(state, action, reward, next_state, terminal)`:
plain `reward` as new value when terminal, otherwise a step toward
`reward + gamma * max` over the Q-values of **all four** actions from
`next_state` (no legality filter). -/
def sr_update_q_table (q : SQTable) (s : SRState) (a : Dir) (r : Rat)
    (next_state : SRState) (terminal : Bool) : SQTable :=
  let old_q := sGetQ q (s, a)
  let new_q :=
    if terminal then r
    else
      let max_future_q := Learning.listMaxQ
        (([Dir.left, Dir.right, Dir.up, Dir.down]).map fun a' => sGetQ q (next_state, a'))
      old_q + sr_alpha * (r + sr_gamma * max_future_q - old_q)
  sSetQ q (s, a) new_q

/-- Danger flag of a state for a given action direction. -/
def dangerBit (s : SRState) : Dir → Bool
  | Dir.left => s.dangerLeft
  | Dir.right => s.dangerRight
  | Dir.up => s.dangerUp
  | Dir.down => s.dangerDown

/-- Modelled from the spec: the actions "legal from s'" in the claimed
update rule — not a reversal of the state's direction and not flagged
dangerous.  (The source has no such filter in `_update_q_table`; this
definition follows the claim's words for comparison.) -/
def claimLegalActions (s : SRState) : List Dir :=
  ([Dir.left, Dir.right, Dir.up, Dir.down]).filter fun a =>
    ! decide (a = reverseDir s.dir) && ! dangerBit s a

end SimpleReflexRL

/-! ### Concrete inputs used by the Q-learning claims -/

/-- Next state used by the C2 counterexample: heading down, with
`left` flagged dangerous. -/
def srCounterNext : SimpleReflexRL.SRState :=
  SimpleReflexRL.SRState.mk false false false false true false false false Dir.down

/-- Old state used by the C2 counterexample (all flags clear). -/
def srCounterOld : SimpleReflexRL.SRState :=
  SimpleReflexRL.SRState.mk false false false false false false false false Dir.down

/-- Q-table with a single entry: 100 for the dangerous action `left`
at `srCounterNext`. -/
def srCounterTable : SimpleReflexRL.SQTable :=
  [((srCounterNext, Dir.left), 100)]

/-- Game used by the C3 counterexample: a length-2 snake whose head just
reached the left wall while eating, apple far away at (960, 760). -/
def rewardCounterGame : Allagents.AGame :=
  Allagents.AGame.mk (Snake.mk Dir.down 2 [0, 0] [40, 0]) (Cell.mk 960 760)

/-! ### Generic worklist search (for ai.py BFS, reflexagent.py BFS,
allagents.py DFS; claims C1, C6, C7) -/

/-- The canonical direction list `['left', 'right', 'up', 'down']`. -/
def dirList4 : List Dir := [Dir.left, Dir.right, Dir.up, Dir.down]

namespace Search

/-- A queue entry of the breadth-first loops:
`(cell, first_direction, depth)`. -/
abbrev Entry : Type := Cell × Dir × Nat

/-- Final state of a search run. -/
structure BfsResult where
  vis : List Cell
  cnt : Nat
  found : Option Dir
deriving Repr

/-- Neighbor expansion step shared by the BFS loops: for each direction
in order, skip visited cells, then skip non-free cells, otherwise append
the neighbor to the queue (inheriting the popped entry's first
direction) and mark it visited. -/
def expand (free : Cell → Bool) (dirs : List Dir) (cell : Cell) (fd : Dir) (depth : Nat)
    (q : List Entry) (v : List Cell) : List Entry × List Cell :=
  dirs.foldl
    (fun acc d =>
      let n := stepCell cell d
      if n ∈ acc.2 then acc
      else if free n then (acc.1 ++ [(n, fd, depth + 1)], acc.2 ++ [n])
      else acc)
    (q, v)

/-- Count-cap test (`while ... and count < max_iterations`). -/
def capStop (ccap : Option Nat) (c : Nat) : Bool :=
  match ccap with
  | some m => decide (m ≤ c)
  | none => false

/-- Target test of the pathfinder (`if current == target`). -/
def atTarget (tgt : Option Cell) (cell : Cell) : Bool :=
  match tgt with
  | some t => decide (cell = t)
  | none => false

/-- Depth-cap test (`if depth >= max_depth: continue`). -/
def depthStop (dcap : Option Nat) (k : Nat) : Bool :=
  match dcap with
  | some m => decide (m ≤ k)
  | none => false

/-- The FIFO worklist loop shared by `Game._bfs_pathfind` (target and
depth cap 15), `Game._count_available_space` (depth cap 8, counting
pops) and `Game._bfs_accessible_spaces` (count cap 100).  `fuel` is an
upper bound on the number of iterations; it is chosen large enough that
it never runs out (each iteration pops one entry and every enqueue
consumes one of the at most 800000 free board cells). -/
def bfsCore (free : Cell → Bool) (dirs : List Dir) (tgt : Option Cell)
    (dcap ccap : Option Nat) : Nat → List Entry → List Cell → Nat → BfsResult
  | 0, _, v, c => BfsResult.mk v c none
  | fuel + 1, q, v, c =>
    match q with
    | [] => BfsResult.mk v c none
    | (cell, fd, depth) :: rest =>
      if capStop ccap c then BfsResult.mk v c none
      else if atTarget tgt cell then BfsResult.mk v c (some fd)
      else if depthStop dcap depth then bfsCore free dirs tgt dcap ccap fuel rest v (c + 1)
      else
        let qv := expand free dirs cell fd depth rest v
        bfsCore free dirs tgt dcap ccap fuel qv.1 qv.2 (c + 1)

/-- Fuel bound: initial queue (at most 4) plus five times the number of
cells that can ever be enqueued on the 1000 by 800 board. -/
def bfsFuel : Nat := 4100000

/-- Free paths: `PathN free a n b` holds when `b` is reachable from `a`
in exactly `n` grid steps all of whose visited cells (after `a`) are
free. -/
inductive PathN (free : Cell → Bool) : Cell → Nat → Cell → Prop where
  | refl (a : Cell) : PathN free a 0 a
  | step {a : Cell} {n : Nat} {b : Cell} (h : PathN free a n b) (d : Dir)
      (hf : free (stepCell b d) = true) : PathN free a (n + 1) (stepCell b d)

/-- End cell of a direction list followed from `c`. -/
def pathFrom : Cell → List Dir → Cell
  | c, [] => c
  | c, d :: ds => pathFrom (stepCell c d) ds

/-- Executable path check: every cell stepped onto is free. -/
def pathOkB (free : Cell → Bool) : Cell → List Dir → Bool
  | _, [] => true
  | c, d :: ds => free (stepCell c d) && pathOkB free (stepCell c d) ds

/-- `dreach free seeds k c`: some seed entry reaches `c` through free
cells with total depth `k` (seed depth plus path length). -/
def dreach (free : Cell → Bool) (seeds : List Entry) (k : Nat) (c : Cell) : Prop :=
  ∃ e ∈ seeds, ∃ n : Nat, PathN free e.1 n c ∧ k = e.2.2 + n

/-- `dreachD` additionally fixes the seed's recorded first direction. -/
def dreachD (free : Cell → Bool) (seeds : List Entry) (d : Dir) (k : Nat) (c : Cell) : Prop :=
  ∃ e ∈ seeds, e.2.1 = d ∧ ∃ n : Nat, PathN free e.1 n c ∧ k = e.2.2 + n

/-- Depth within the optional cap. -/
def capLe (dcap : Option Nat) (k : Nat) : Prop :=
  match dcap with
  | some m => k ≤ m
  | none => True

/-- All cells of the 1000 by 800 board as a finite set. -/
def boardFinset : Finset Cell :=
  ((Finset.Icc (0 : Int) 999) ×ˢ (Finset.Icc (0 : Int) 799)).image fun p => Cell.mk p.1 p.2

attribute [irreducible] boardFinset

/-- Depth strictly below the optional cap. -/
def capLt (dcap : Option Nat) (k : Nat) : Prop :=
  match dcap with
  | some m => k < m
  | none => True

/-- Loop invariant of `bfsCore` (without a count cap).  `q` is the
queue, `v` the visited list. -/
structure Inv (free : Cell → Bool) (seeds : List Entry) (tgt : Option Cell)
    (dcap : Option Nat) (q : List Entry) (v : List Cell) : Prop where
  sorted : q.Pairwise fun e1 e2 => e1.2.2 ≤ e2.2.2
  twoLayer : ∀ e1 ∈ q, ∀ e2 ∈ q, e1.2.2 ≤ e2.2.2 + 1
  entries : ∀ e ∈ q, e.1 ∈ v ∧ dreachD free seeds e.2.1 e.2.2 e.1 ∧
    (∀ j, dreach free seeds j e.1 → e.2.2 ≤ j) ∧ capLe dcap e.2.2
  seedCells : ∀ e ∈ seeds, e.1 ∈ v
  vSound : ∀ c ∈ v, ∃ k, dreach free seeds k c ∧ capLe dcap k
  closed : ∀ c ∈ v, (∀ e ∈ q, e.1 ≠ c) → ∀ j, dreach free seeds j c →
    (∀ j2, dreach free seeds j2 c → j ≤ j2) → capLt dcap j →
    ∀ d : Dir, free (stepCell c d) = true → stepCell c d ∈ v
  vNodup : v.Nodup
  inBoard : ∀ c ∈ v, c ∈ boardFinset ∨ c ∈ seeds.map (fun e => e.1)
  targetInQ : ∀ t, tgt = some t → t ∈ v → ∃ e ∈ q, e.1 = t

end Search

/-! ### ai.py search-based agent (claims C1, C6, C7) -/

namespace Ai

/-- The cell test of `Game._bfs_pathfind`'s expansion (and, identically,
of `Game._is_potential_move_colliding`): inside the window and not
overlapping body segments `1 .. length-1`. -/
def pathFree (s : Snake) (c : Cell) : Bool :=
  decide (0 ≤ c.x) && decide (c.x < SCREEN_W) && decide (0 ≤ c.y) && decide (c.y < SCREEN_H)
    && ! ((List.range' 1 (s.length - 1)).any fun i =>
      is_collision c.x c.y (s.x.getD i 0) (s.y.getD i 0))

/-- The cell test of `Game._count_available_space`: inside the window
and not overlapping **any** body segment (`for i in range(length)`). -/
def countFree (s : Snake) (c : Cell) : Bool :=
  decide (0 ≤ c.x) && decide (c.x < SCREEN_W) && decide (0 ≤ c.y) && decide (c.y < SCREEN_H)
    && ! ((List.range s.length).any fun i =>
      is_collision c.x c.y (s.x.getD i 0) (s.y.getD i 0))

/-- `smart_agent_bfs`'s first-move filter: not a reversal of the current
heading and not immediately colliding. -/
def valid_directions (s : Snake) : List Dir :=
  dirList4.filter fun d =>
    ! decide (d = reverseDir s.direction)
      && ! is_potential_move_colliding s (get_potential_head s d)

/-- The BFS seed entries: one step in each valid direction, recorded
with that direction and depth 1. -/
def bfs_seeds (s : Snake) : List Search.Entry :=
  (valid_directions s).map fun d => (get_potential_head s d, d, 1)

/-- `Game._bfs_pathfind` as called by `smart_agent_bfs`: FIFO BFS from
the seeds with depth cap 15, expanding with the canonical direction
order and returning the first direction of the first dequeued entry
whose cell equals the target, `none` when the queue exhausts. -/
def bfs_pathfind (s : Snake) (target : Cell) : Option Dir :=
  (Search.bfsCore (pathFree s) dirList4 (some target) (some 15) none Search.bfsFuel
    (bfs_seeds s) ((valid_directions s).map fun d => get_potential_head s d) 0).found

/-- The three ways `smart_agent_bfs` can come out: early return with no
valid direction, a move along the BFS direction, or the fallback into
`_safety_first_agent` (whose float-based scoring is outside this
embedding). -/
inductive SmartOutcome where
  | noSafeMoves
  | bfsMove (d : Dir)
  | fallbackToSafety
deriving DecidableEq, Repr

/-- Control flow of `Game.smart_agent_bfs`. -/
def smart_agent_bfs (s : Snake) (apple : Cell) : SmartOutcome :=
  if (valid_directions s).isEmpty then SmartOutcome.noSafeMoves
  else
    match bfs_pathfind s apple with
    | some d => SmartOutcome.bfsMove d
    | none => SmartOutcome.fallbackToSafety

/-- `Game._count_available_space(start_x, start_y)` (depth cap 8): the
flood-fill count of cells dequeued from the single unchecked seed. -/
def count_available_space (s : Snake) (start : Cell) : Nat :=
  (Search.bfsCore (countFree s) dirList4 none (some 8) none Search.bfsFuel
    [(start, Dir.left, 0)] [start] 0).cnt

end Ai

/-! ### reflexagent.py accessible-space BFS (claim C6) -/

namespace Reflexagent

/-- The cell test of `Game._bfs_accessible_spaces`: inside the window
and not equal to any body segment `1 .. length-1` (exact coordinate
equality, unlike ai.py's window test). -/
def accFree (s : Snake) (c : Cell) : Bool :=
  decide (0 ≤ c.x) && decide (c.x < SCREEN_W) && decide (0 ≤ c.y) && decide (c.y < SCREEN_H)
    && ! ((List.range' 1 (s.length - 1)).any fun i =>
      decide (c.x = s.x.getD i 0) && decide (c.y = s.y.getD i 0))

/-- reflexagent.py's neighbor order
`[(SIZE, 0), (-SIZE, 0), (0, SIZE), (0, -SIZE)]`. -/
def reflexDirs : List Dir := [Dir.right, Dir.left, Dir.down, Dir.up]

/-- `Game._bfs_accessible_spaces(start_x, start_y)`: FIFO flood count
from the unchecked start cell, capped at 100 counted pops. -/
def bfs_accessible_spaces (s : Snake) (start : Cell) : Nat :=
  (Search.bfsCore (accFree s) reflexDirs none none (some 100) Search.bfsFuel
    [(start, Dir.left, 0)] [start] 0).cnt

end Reflexagent

/-! ### allagents.py available-space DFS (claim C6) -/

namespace AllagentsDFS

/-- The cell test of `GoalBasedAgent.count_available_space`: inside the
window and not equal to any body segment `0 .. length-2` (the tail is
excluded; exact coordinate equality). -/
def countFree (s : Snake) (c : Cell) : Bool :=
  decide (0 ≤ c.x) && decide (c.x < SCREEN_W) && decide (0 ≤ c.y) && decide (c.y < SCREEN_H)
    && ! ((List.range (s.length - 1)).any fun i =>
      decide (c.x = s.x.getD i 0) && decide (c.y = s.y.getD i 0))

/-- allagents.py's neighbor order
`[(SIZE, 0), (-SIZE, 0), (0, SIZE), (0, -SIZE)]`. -/
def dfsNeighbors (c : Cell) : List Cell :=
  [stepCell c Dir.right, stepCell c Dir.left, stepCell c Dir.down, stepCell c Dir.up]

/-- The LIFO worklist loop of `GoalBasedAgent.count_available_space`:
pop from the right end of the stack, skip already-visited cells, check
bounds and body on pop, count and push the four neighbors (pre-filtered
against the visited set) on success; stop at 100 counted cells. -/
def dfsCore (free : Cell → Bool) (ccap : Nat) :
    Nat → List Cell → List Cell → Nat → List Cell × Nat
  | 0, _, v, c => (v, c)
  | fuel + 1, st, v, c =>
    if decide (ccap ≤ c) then (v, c)
    else
      match st.getLast? with
      | none => (v, c)
      | some top =>
        if top ∈ v then dfsCore free ccap fuel st.dropLast v c
        else if free top then
          dfsCore free ccap fuel
            (st.dropLast ++ (dfsNeighbors top).filter fun n => ! decide (n ∈ v ++ [top]))
            (v ++ [top]) (c + 1)
        else dfsCore free ccap fuel st.dropLast v c

/-- `GoalBasedAgent.count_available_space(x, y)`. -/
def count_available_space (s : Snake) (start : Cell) : Nat :=
  (dfsCore (countFree s) 100 Search.bfsFuel [start] [] 0).2

/-- Loop invariant of `dfsCore`: `st` is the stack, `v` the counted
cells. -/
structure DInv (free : Cell → Bool) (start : Cell) (st v : List Cell) : Prop where
  vNodup : v.Nodup
  vSound : ∀ x ∈ v, free x = true ∧ ∃ n, Search.PathN free start n x
  vStart : ∀ x ∈ v, free start = true
  stackCells : ∀ x ∈ st, x = start ∨ ∃ p ∈ v, ∃ d : Dir, x = stepCell p d
  closedE : ∀ x ∈ v, ∀ d : Dir, free (stepCell x d) = true →
    stepCell x d ∈ v ∨ stepCell x d ∈ st
  startIn : free start = true → start ∈ v ∨ start ∈ st

end AllagentsDFS

/-- A snake with one extra occupied body cell appended (the device used
by claim C6 to add an obstacle). -/
def snakeAppendSegment (s : Snake) (o : Cell) : Snake :=
  Snake.mk s.direction (s.length + 1) (s.x ++ [o.x]) (s.y ++ [o.y])

/-- Snake used by the C1 counterexample: length 1 at (440, 400) heading
right, so the reversal `left` is filtered from the BFS seeds. -/
def bfsCounterSnake : Snake := Snake.mk Dir.right 1 [440] [400]

/-- Apple used by the C1 counterexample: directly left of the head. -/
def bfsCounterApple : Cell := Cell.mk 400 400

/-- Snake used by the C7 counterexample: head boxed in the top-left
corner (walls left and up, body right and below) while heading left. -/
def boxedSnake : Snake := Snake.mk Dir.left 3 [0, 40, 0] [0, 0, 40]

/-- Apple used by the C7 counterexample. -/
def boxedApple : Cell := Cell.mk 500 480

/-! ### Theorems: list-level helper lemmas -/


theorem getD_set_ne {α : Type} (l : List α) (i j : Nat) (a d : α) (h : i ≠ j) :
    (l.set i a).getD j d = l.getD j d := by
  induction l generalizing i j with
  | nil => cases i <;> rfl
  | cons hd tl ih =>
    cases i with
    | zero =>
      cases j with
      | zero => exact absurd rfl h
      | succ j' => rfl
    | succ i' =>
      cases j with
      | zero => rfl
      | succ j' =>
        simpa [List.set, List.getD] using ih i' j' (by omega)

theorem getD_set_self {α : Type} (l : List α) (i : Nat) (a d : α) (h : i < l.length) :
    (l.set i a).getD i d = a := by
  induction l generalizing i with
  | nil => simp at h
  | cons hd tl ih =>
    cases i with
    | zero => rfl
    | succ i' =>
      simpa [List.set, List.getD] using ih i' (by simpa using h)

theorem length_set {α : Type} (l : List α) (i : Nat) (a : α) :
    (l.set i a).length = l.length := by
  simp

/-- Behaviour of the descending shift loop: indices `1..n` receive the
original value of their predecessor, all other indices are untouched. -/
theorem shiftLoop_spec (n : Nat) (a : List Int) (hn : n < a.length) :
    (∀ i, 1 ≤ i → i ≤ n → (shiftLoop n a).getD i 0 = a.getD (i - 1) 0) ∧
    (∀ i, i = 0 ∨ n < i → (shiftLoop n a).getD i 0 = a.getD i 0) ∧
    (shiftLoop n a).length = a.length := by
  induction n generalizing a with
  | zero =>
    refine ⟨fun i h1 h2 => by omega, fun i _ => rfl, rfl⟩
  | succ m ih =>
    have hstep : shiftLoop (m + 1) a = shiftLoop m (a.set (m + 1) (a.getD m 0)) := rfl
    have hlen : m < (a.set (m + 1) (a.getD m 0)).length := by
      rw [length_set]; omega
    obtain ⟨h1, h2, h3⟩ := ih (a.set (m + 1) (a.getD m 0)) hlen
    refine ⟨?_, ?_, ?_⟩
    · intro i hi1 hi2
      rcases Nat.lt_or_ge i (m + 1) with hlt | hge
      · rw [hstep, h1 i hi1 (by omega), getD_set_ne _ _ _ _ _ (by omega)]
      · have : i = m + 1 := by omega
        subst this
        rw [hstep, h2 (m + 1) (Or.inr (by omega)), getD_set_self _ _ _ _ (by omega)]
        simp
    · intro i hi
      rw [hstep, h2 i (by omega), getD_set_ne _ _ _ _ _ (by omega)]
    · rw [hstep, h3, length_set]

theorem walk_length (s : Snake) : (walk s).length = s.length := rfl

theorem walk_direction (s : Snake) : (walk s).direction = s.direction := rfl

theorem walk_x_getD (s : Snake) (hx : s.x.length = s.length) (hs : 1 ≤ s.length)
    (i : Nat) (h0 : 0 < i) (hi : i < s.length) :
    (walk s).x.getD i 0 = s.x.getD (i - 1) 0 := by
  obtain ⟨h1, _h2, _h3⟩ := shiftLoop_spec (s.length - 1) s.x (by omega)
  show ((shiftLoop (s.length - 1) s.x).set 0 _).getD i 0 = _
  rw [getD_set_ne _ _ _ _ _ (by omega), h1 i (by omega) (by omega)]

theorem walk_y_getD (s : Snake) (hy : s.y.length = s.length) (hs : 1 ≤ s.length)
    (i : Nat) (h0 : 0 < i) (hi : i < s.length) :
    (walk s).y.getD i 0 = s.y.getD (i - 1) 0 := by
  obtain ⟨h1, _h2, _h3⟩ := shiftLoop_spec (s.length - 1) s.y (by omega)
  show ((shiftLoop (s.length - 1) s.y).set 0 _).getD i 0 = _
  rw [getD_set_ne _ _ _ _ _ (by omega), h1 i (by omega) (by omega)]

theorem walk_head_x (s : Snake) (hx : s.x.length = s.length) (hs : 1 ≤ s.length) :
    (walk s).x.getD 0 0 = s.x.getD 0 0 + dirDX s.direction := by
  obtain ⟨_h1, h2, h3⟩ := shiftLoop_spec (s.length - 1) s.x (by omega)
  show ((shiftLoop (s.length - 1) s.x).set 0 _).getD 0 0 = _
  rw [getD_set_self _ _ _ _ (by rw [h3]; omega), h2 0 (Or.inl rfl)]

theorem walk_head_y (s : Snake) (hy : s.y.length = s.length) (hs : 1 ≤ s.length) :
    (walk s).y.getD 0 0 = s.y.getD 0 0 + dirDY s.direction := by
  obtain ⟨_h1, h2, h3⟩ := shiftLoop_spec (s.length - 1) s.y (by omega)
  show ((shiftLoop (s.length - 1) s.y).set 0 _).getD 0 0 = _
  rw [getD_set_self _ _ _ _ (by rw [h3]; omega), h2 0 (Or.inl rfl)]

/-- C8: for a consistent snake, one `walk` moves every body segment
`i > 0` to the old position of segment `i-1`, and moves the head by
exactly one `SIZE` step in the current direction (`dirDX`/`dirDY` are
the per-direction deltas: one of them is `±SIZE`, the other `0`). -/
theorem walk_shifts_body_and_advances_head (s : Snake)
    (hx : s.x.length = s.length) (hy : s.y.length = s.length) (hs : 1 ≤ s.length) :
    (∀ i, 0 < i → i < s.length →
      (walk s).x.getD i 0 = s.x.getD (i - 1) 0 ∧
      (walk s).y.getD i 0 = s.y.getD (i - 1) 0) ∧
    (walk s).x.getD 0 0 = s.x.getD 0 0 + dirDX s.direction ∧
    (walk s).y.getD 0 0 = s.y.getD 0 0 + dirDY s.direction := by
  exact ⟨fun i h0 hi => ⟨walk_x_getD s hx hs i h0 hi, walk_y_getD s hy hs i h0 hi⟩,
    walk_head_x s hx hs, walk_head_y s hy hs⟩

/-- Witness for C8 at a concrete length-3 snake heading right. -/
theorem walk_shifts_body_and_advances_head_witness :
    (walk { direction := Dir.right, length := 3, x := [120, 80, 40], y := [40, 40, 40] }).x.getD 1 0
        = (120 : Int) ∧
    (walk { direction := Dir.right, length := 3, x := [120, 80, 40], y := [40, 40, 40] }).x.getD 0 0
        = (160 : Int) := by
  have h := walk_shifts_body_and_advances_head
    { direction := Dir.right, length := 3, x := [120, 80, 40], y := [40, 40, 40] }
    rfl rfl (by decide)
  exact ⟨(h.1 1 (by decide) (by decide)).1, h.2.1⟩

/-- C9 counterexample: from the initial snake, grow twice, walk twice,
then turn left and up between walks (two turns in one tick compose into
a net reversal, which the per-turn guards do not prevent).  After the
final walk the head coincides with body segment 2, so `self_collision`
(which scans from index 3) answers `false` while the scan from index 1
answers `true`.  This refutes the claimed invariant and the claimed
equivalence of the two scans on reachable states. -/
theorem self_collision_scan_counterexample :
    (bodyCell (runOps [SnakeOp.opGrow, SnakeOp.opGrow, SnakeOp.opWalk, SnakeOp.opWalk,
        SnakeOp.opLeft, SnakeOp.opUp, SnakeOp.opWalk]) 0
      = bodyCell (runOps [SnakeOp.opGrow, SnakeOp.opGrow, SnakeOp.opWalk, SnakeOp.opWalk,
        SnakeOp.opLeft, SnakeOp.opUp, SnakeOp.opWalk]) 2) ∧
    self_collision (runOps [SnakeOp.opGrow, SnakeOp.opGrow, SnakeOp.opWalk, SnakeOp.opWalk,
        SnakeOp.opLeft, SnakeOp.opUp, SnakeOp.opWalk]) = false ∧
    selfCollisionScanFrom 1 (runOps [SnakeOp.opGrow, SnakeOp.opGrow, SnakeOp.opWalk,
        SnakeOp.opWalk, SnakeOp.opLeft, SnakeOp.opUp, SnakeOp.opWalk]) = true := by
  decide

theorem head_never_collides_body1 (s : Snake)
    (hx : s.x.length = s.length) (hy : s.y.length = s.length) (hs : 2 ≤ s.length) :
    is_collision ((walk s).x.getD 0 0) ((walk s).y.getD 0 0)
      ((walk s).x.getD 1 0) ((walk s).y.getD 1 0) = false := by
  rw [walk_x_getD s hx (by omega) 1 (by omega) (by omega),
    walk_y_getD s hy (by omega) 1 (by omega) (by omega),
    walk_head_x s hx (by omega), walk_head_y s hy (by omega)]
  cases s.direction <;>
    simp [is_collision, dirDX, dirDY, SIZE, decide_eq_false_iff_not]

/-- C9 (amended): after a `walk` of a consistent snake of length at
least 2, the head never overlaps body segment 1 (it moved off that cell
by exactly one step), so the scan from index 2 agrees with the scan from
index 1.  The head can, however, land on body segment 2 (see the
counterexample), so the source's scan from index 3 is not equivalent to
a scan from index 1. -/
theorem self_collision_scan_from_two_amended (s : Snake)
    (hx : s.x.length = s.length) (hy : s.y.length = s.length) (hs : 2 ≤ s.length) :
    is_collision ((walk s).x.getD 0 0) ((walk s).y.getD 0 0)
      ((walk s).x.getD 1 0) ((walk s).y.getD 1 0) = false ∧
    selfCollisionScanFrom 2 (walk s) = selfCollisionScanFrom 1 (walk s) := by
  refine ⟨head_never_collides_body1 s hx hy hs, ?_⟩
  unfold selfCollisionScanFrom
  rw [walk_length]
  have hr : List.range' 1 (s.length - 1) = 1 :: List.range' 2 (s.length - 2) := by
    have h := List.range'_succ 1 (s.length - 2) 1
    rw [show s.length - 1 = s.length - 2 + 1 by omega, h]
  rw [hr, List.any_cons, head_never_collides_body1 s hx hy hs, Bool.false_or]

/-- Witness for C9's amended theorem on a concrete length-3 snake. -/
theorem self_collision_scan_from_two_amended_witness :
    is_collision ((walk { direction := Dir.down, length := 3, x := [40, 40, 40], y := [120, 80, 40] }).x.getD 0 0)
      ((walk { direction := Dir.down, length := 3, x := [40, 40, 40], y := [120, 80, 40] }).y.getD 0 0)
      ((walk { direction := Dir.down, length := 3, x := [40, 40, 40], y := [120, 80, 40] }).x.getD 1 0)
      ((walk { direction := Dir.down, length := 3, x := [40, 40, 40], y := [120, 80, 40] }).y.getD 1 0) = false ∧
    selfCollisionScanFrom 2 (walk { direction := Dir.down, length := 3, x := [40, 40, 40], y := [120, 80, 40] })
      = selfCollisionScanFrom 1 (walk { direction := Dir.down, length := 3, x := [40, 40, 40], y := [120, 80, 40] }) :=
  self_collision_scan_from_two_amended
    { direction := Dir.down, length := 3, x := [40, 40, 40], y := [120, 80, 40] } rfl rfl (by decide)

/-! ### Theorems for the utility-based agent (claim C5) -/

namespace Allagents

theorem fdiv40_nonneg (a : Int) (h : 0 ≤ a) : 0 ≤ a.fdiv 40 := by
  rw [Int.fdiv_eq_ediv _ (by norm_num)]
  omega

theorem fdiv40_le (a c : Int) (h : 0 ≤ a) (h2 : a ≤ 40 * c + 39) : a.fdiv 40 ≤ c := by
  rw [Int.fdiv_eq_ediv _ (by norm_num)]
  omega

theorem bounds_of_not_colliding (s : Snake) (c : Cell)
    (h : is_potential_move_colliding s c = false) :
    0 ≤ c.x ∧ c.x < SCREEN_W ∧ 0 ≤ c.y ∧ c.y < SCREEN_H := by
  unfold is_potential_move_colliding at h
  split at h
  · exact absurd h (by simp)
  · next hcond => push_neg at hcond; tauto

theorem utility_of_colliding (g : AGame) (prev : Option Dir) (d : Dir)
    (h : is_potential_move_colliding g.snake (get_potential_head g.snake d) = true) :
    calculate_utility g prev d = -10000 := by
  unfold calculate_utility
  rw [h]
  rfl

theorem utilityScore_lb (g : AGame) (prev : Option Dir) (d : Dir)
    (hax : 0 ≤ g.apple.x) (hax2 : g.apple.x < SCREEN_W)
    (hay : 0 ≤ g.apple.y) (hay2 : g.apple.y < SCREEN_H)
    (h : is_potential_move_colliding g.snake (get_potential_head g.snake d) = false) :
    -880 ≤ utilityScore g prev d := by
  obtain ⟨hnx, hnx2, hny, hny2⟩ := bounds_of_not_colliding _ _ h
  simp only [SCREEN_W, SCREEN_H] at hnx2 hny2 hax2 hay2
  set n := get_potential_head g.snake d with hn
  have hdist : calculate_manhattan_distance n.x n.y g.apple.x g.apple.y ≤ 43 := by
    unfold calculate_manhattan_distance SIZE
    have h1 : |g.apple.x - n.x| ≤ 999 := abs_le.mpr ⟨by omega, by omega⟩
    have h2 : |g.apple.y - n.y| ≤ 799 := abs_le.mpr ⟨by omega, by omega⟩
    have := fdiv40_le _ 24 (abs_nonneg (g.apple.x - n.x)) (by omega)
    have := fdiv40_le _ 19 (abs_nonneg (g.apple.y - n.y)) (by omega)
    omega
  have hdist0 : 0 ≤ calculate_manhattan_distance n.x n.y g.apple.x g.apple.y := by
    unfold calculate_manhattan_distance SIZE
    have := fdiv40_nonneg _ (abs_nonneg (g.apple.x - n.x))
    have := fdiv40_nonneg _ (abs_nonneg (g.apple.y - n.y))
    omega
  have hesc : 0 ≤ count_escape_routes g n.x n.y := Int.ofNat_nonneg _
  have hwall : 0 ≤ (min (min (min n.x (1000 - n.x)) n.y) (800 - n.y)).fdiv 40 := by
    apply fdiv40_nonneg
    exact le_min (le_min (le_min hnx (by omega)) hny) (by omega)
  unfold utilityScore
  rw [← hn]
  simp only [SCREEN_W, SCREEN_H, SIZE]
  have hb1 : (0 : Int) ≤ (if prev = some d then 2 else 0) := by split <;> omega
  have hb2 : (0 : Int) ≤ (if d = g.snake.direction then 5 else 0) := by split <;> omega
  have hcore : -860 ≤ 0 - calculate_manhattan_distance n.x n.y g.apple.x g.apple.y * 20
      + count_escape_routes g n.x n.y * 10
      + (min (min (min n.x (1000 - n.x)) n.y) (800 - n.y)).fdiv 40 * 3 := by
    nlinarith
  split
  · split
    · omega
    · omega
  · omega

theorem argmax_fold (f : Dir → Int) (rest : List Dir) :
    ∀ b : Dir × Int, b.2 = f b.1 →
      (rest.foldl (fun acc d => if f d > acc.2 then (d, f d) else acc) b).2
          = f (rest.foldl (fun acc d => if f d > acc.2 then (d, f d) else acc) b).1 ∧
      b.2 ≤ (rest.foldl (fun acc d => if f d > acc.2 then (d, f d) else acc) b).2 ∧
      ∀ d ∈ rest, f d ≤ (rest.foldl (fun acc d => if f d > acc.2 then (d, f d) else acc) b).2 := by
  induction rest with
  | nil => exact fun b hb => ⟨hb, le_refl _, by simp⟩
  | cons d rest ih =>
    intro b hb
    simp only [List.foldl_cons]
    by_cases hc : f d > b.2
    · rw [if_pos hc]
      obtain ⟨r1, r2, r3⟩ := ih (d, f d) rfl
      refine ⟨r1, le_trans (le_of_lt hc) r2, ?_⟩
      intro e he
      rcases List.mem_cons.mp he with rfl | he'
      · exact r2
      · exact r3 e he'
    · rw [if_neg hc]
      obtain ⟨r1, r2, r3⟩ := ih b hb
      refine ⟨r1, r2, ?_⟩
      intro e he
      rcases List.mem_cons.mp he with rfl | he'
      · exact le_trans (by omega) r2
      · exact r3 e he'

theorem mem_utilityCandidates (cur d : Dir) (h : d ≠ reverseDir cur) :
    d ∈ utilityCandidates cur := by
  cases cur <;> cases d <;> first
    | exact absurd rfl h
    | decide

/-- C5 (amended): whenever some non-reversal direction is collision-free
and the apple is on the board, allagents.py's `UtilityBasedAgent.make_move`
never picks an immediately colliding direction: a colliding candidate
scores exactly -10000 while any collision-free candidate scores at least
-880.  (As the counterexample shows, the original claim quantified over
all four directions fails: when only the reversal direction is free, the
agent picks a lethal one.) -/
theorem utility_agent_safe_among_nonreversal (g : AGame) (prev : Option Dir)
    (hax : 0 ≤ g.apple.x) (hax2 : g.apple.x < SCREEN_W)
    (hay : 0 ≤ g.apple.y) (hay2 : g.apple.y < SCREEN_H)
    (hsafe : ∃ d, d ≠ reverseDir g.snake.direction ∧
      is_potential_move_colliding g.snake (get_potential_head g.snake d) = false) :
    is_potential_move_colliding g.snake
      (get_potential_head g.snake (utility_make_move g prev)) = false := by
  obtain ⟨ds, hds, hsafe⟩ := hsafe
  have hmem := mem_utilityCandidates _ _ hds
  have hlbs : -880 ≤ calculate_utility g prev ds := by
    unfold calculate_utility
    rw [hsafe]
    simp only [Bool.false_eq_true, if_false]
    exact utilityScore_lb g prev ds hax hax2 hay hay2 hsafe
  unfold utility_make_move
  rcases hcand : utilityCandidates g.snake.direction with _ | ⟨d0, rest⟩
  · rw [hcand] at hmem; simp at hmem
  · rw [hcand] at hmem
    obtain ⟨r1, r2, r3⟩ := argmax_fold (calculate_utility g prev) rest
      (d0, calculate_utility g prev d0) rfl
    set r := rest.foldl
      (fun acc d =>
        if calculate_utility g prev d > acc.2 then (d, calculate_utility g prev d) else acc)
      (d0, calculate_utility g prev d0) with hr
    have hbig : -880 ≤ r.2 := by
      rcases List.mem_cons.mp hmem with rfl | hin
      · exact le_trans hlbs r2
      · exact le_trans hlbs (r3 ds hin)
    by_contra hcoll
    have hcoll' : is_potential_move_colliding g.snake
        (get_potential_head g.snake r.1) = true := by
      revert hcoll
      cases is_potential_move_colliding g.snake (get_potential_head g.snake r.1) <;> simp
    have := utility_of_colliding g prev r.1 hcoll'
    rw [← r1] at this
    omega

/-- C5 counterexample: in `utilityCounterGame` one of the four directions
(`left`) is collision-free, yet `make_move` picks `right`, an immediate
collision — refuting the claim that an arbitrary direction is returned
only when all four are lethal. -/
theorem utility_agent_lethal_pick_counterexample :
    utility_make_move utilityCounterGame none = Dir.right ∧
    is_potential_move_colliding utilityCounterGame.snake
      (get_potential_head utilityCounterGame.snake Dir.right) = true ∧
    is_potential_move_colliding utilityCounterGame.snake
      (get_potential_head utilityCounterGame.snake Dir.left) = false := by
  decide

/-- Witness for C5's amended theorem on a concrete open position. -/
theorem utility_agent_safe_among_nonreversal_witness :
    is_potential_move_colliding utilityOpenGame.snake
      (get_potential_head utilityOpenGame.snake
        (utility_make_move utilityOpenGame none)) = false :=
  utility_agent_safe_among_nonreversal utilityOpenGame
    none (by decide) (by decide) (by decide) (by decide)
    ⟨Dir.left, by decide, by decide⟩

end Allagents

/-! ### Theorems for the Q-learning embeddings (claims C2, C3, C4, C10) -/

namespace Learning

theorem findRow_append (t : Table) (s : LState) (r0 : Row) (s₂ : LState) :
    findRow (t ++ [(s, r0)]) s₂ =
      match findRow t s₂ with
      | some r => some r
      | none => if s = s₂ then some r0 else none := by
  induction t with
  | nil => simp [findRow]
  | cons p rest ih =>
    obtain ⟨s', r⟩ := p
    by_cases h : s' = s₂ <;> simp [findRow, h, ih]

theorem getQRow_ensureRow (t : Table) (s s₂ : LState) :
    getQRow (ensureRow t s) s₂ = getQRow t s₂ := by
  unfold ensureRow
  cases h : findRow t s with
  | some r => rfl
  | none =>
    unfold getQRow
    rw [findRow_append]
    cases h2 : findRow t s₂ with
    | some r => rfl
    | none =>
      by_cases hss : s = s₂
      · subst hss
        simp
      · simp [hss]

theorem findRow_ensure_self (t : Table) (s : LState) :
    (findRow (ensureRow t s) s).isSome := by
  unfold ensureRow
  cases h : findRow t s with
  | some r => simp [h]
  | none =>
    rw [findRow_append, h]
    simp

theorem findRow_ensure_mono (t : Table) (s' s : LState) (h : (findRow t s).isSome) :
    (findRow (ensureRow t s') s).isSome := by
  unfold ensureRow
  cases hh : findRow t s' with
  | some r => exact h
  | none =>
    rw [findRow_append]
    cases h3 : findRow t s with
    | some r => simp
    | none => rw [h3] at h; simp at h

theorem findRow_cons (a : LState) (b : Row) (l : Table) (s₂ : LState) :
    findRow ((a, b) :: l) s₂ = if a = s₂ then some b else findRow l s₂ := rfl

theorem getQRow_cons (a : LState) (b : Row) (l : Table) (s₂ : LState) :
    getQRow ((a, b) :: l) s₂ = if a = s₂ then b else getQRow l s₂ := by
  unfold getQRow
  rw [findRow_cons]
  by_cases h : a = s₂
  · rw [if_pos h, if_pos h]
    rfl
  · rw [if_neg h, if_neg h]

theorem getQRow_setRow (t : Table) (s : LState) (nr : Row) (s₂ : LState)
    (hp : (findRow t s).isSome) :
    getQRow (setRow t s nr) s₂ = if s₂ = s then nr else getQRow t s₂ := by
  induction t with
  | nil => simp [findRow] at hp
  | cons p rest ih =>
    obtain ⟨s', r⟩ := p
    unfold setRow
    by_cases h1 : s' = s
    · rw [if_pos h1]
      rw [getQRow_cons, getQRow_cons]
      by_cases h2 : s' = s₂
      · rw [if_pos h2, if_pos (h1 ▸ h2.symm)]
      · rw [if_neg h2, if_neg (fun hh : s₂ = s => h2 (h1.trans hh.symm)), if_neg h2]
    · rw [if_neg h1]
      have hp2 : (findRow rest s).isSome := by
        unfold findRow at hp
        rw [if_neg h1] at hp
        exact hp
      rw [getQRow_cons, getQRow_cons]
      by_cases h2 : s' = s₂
      · have hne : ¬ s₂ = s := fun hh => h1 (h2.trans hh)
        rw [if_pos h2, if_neg hne, if_pos h2]
      · rw [if_neg h2, if_neg h2]
        exact ih hp2

theorem rowGet_rowSet (r : Row) (a a₂ : Fin 4) (v : Rat) :
    rowGet (rowSet r a v) a₂ = if a₂ = a then v else rowGet r a₂ := by
  fin_cases a <;> fin_cases a₂ <;> simp [rowGet, rowSet]

/-- Lookup-level characterization of learning.py's `update_q_table`:
exactly the claimed rule — the stored value moves toward
`r` when done, else toward `r + gamma * max` over the Q-values of the
actions legal from `s'` (0 when none); every other entry is unchanged. -/
theorem update_q_table_lookup (t : Table) (s : LState) (a : Fin 4) (r : Rat)
    (s' : LState) (done : Bool) (s₂ : LState) (a₂ : Fin 4) :
    rowGet (getQRow (update_q_table t s a r s' done) s₂) a₂ =
      if s₂ = s ∧ a₂ = a then
        rowGet (getQRow t s) a + learning_rate *
          ((if done then r
            else r + discount_factor *
              (if (get_valid_actions_for_state s').isEmpty then 0
               else listMaxQ ((get_valid_actions_for_state s').map fun i =>
                 rowGet (getQRow t s') i)))
            - rowGet (getQRow t s) a)
      else rowGet (getQRow t s₂) a₂ := by
  have e1 : getQRow (ensureRow (ensureRow t s) s') s = getQRow t s := by
    rw [getQRow_ensureRow, getQRow_ensureRow]
  have e2 : getQRow (ensureRow (ensureRow t s) s') s' = getQRow t s' := by
    rw [getQRow_ensureRow, getQRow_ensureRow]
  have hp : (findRow (ensureRow (ensureRow t s) s') s).isSome :=
    findRow_ensure_mono _ _ _ (findRow_ensure_self t s)
  simp only [update_q_table]
  rw [getQRow_setRow _ _ _ _ hp]
  by_cases hs : s₂ = s
  · rw [if_pos hs, rowGet_rowSet]
    by_cases ha : a₂ = a
    · rw [if_pos ha, if_pos (And.intro hs ha), e1, e2]
    · rw [if_neg ha, if_neg (fun hh : s₂ = s ∧ a₂ = a => ha hh.2), e1, hs]
  · rw [if_neg hs, if_neg (fun hh : s₂ = s ∧ a₂ = a => hs hh.1),
      getQRow_ensureRow, getQRow_ensureRow]

end Learning

namespace SimpleReflexRL

theorem sGetQ_cons (kk : SRState × Dir) (w : Rat) (rest : SQTable) (key : SRState × Dir) :
    sGetQ ((kk, w) :: rest) key = if kk = key then w else sGetQ rest key := rfl

theorem sGetQ_sSetQ (q : SQTable) (k : SRState × Dir) (v : Rat) (k₂ : SRState × Dir) :
    sGetQ (sSetQ q k v) k₂ = if k₂ = k then v else sGetQ q k₂ := by
  induction q with
  | nil =>
    show sGetQ [(k, v)] k₂ = _
    rw [sGetQ_cons]
    by_cases h : k = k₂
    · rw [if_pos h, if_pos h.symm]
    · rw [if_neg h, if_neg (fun hh : k₂ = k => h hh.symm)]
  | cons p rest ih =>
    obtain ⟨kk, w⟩ := p
    unfold sSetQ
    by_cases h1 : kk = k
    · rw [if_pos h1, sGetQ_cons, sGetQ_cons]
      by_cases h2 : kk = k₂
      · rw [if_pos h2, if_pos (h2.symm.trans h1)]
      · rw [if_neg h2, if_neg (fun hh : k₂ = k => h2 (h1.trans hh.symm)), if_neg h2]
    · rw [if_neg h1, sGetQ_cons, sGetQ_cons]
      by_cases h2 : kk = k₂
      · have hne : ¬ k₂ = k := fun hh => h1 (h2.trans hh)
        rw [if_pos h2, if_neg hne, if_pos h2]
      · rw [if_neg h2, if_neg h2]
        exact ih

/-- Lookup-level characterization of simplereflex.py's
`_update_q_table`: the target's max ranges over **all four** actions
(no legality filter); terminal updates store plain `r`. -/
theorem sr_update_lookup (q : SQTable) (s : SRState) (a : Dir) (r : Rat)
    (next_state : SRState) (terminal : Bool) (k₂ : SRState × Dir) :
    sGetQ (sr_update_q_table q s a r next_state terminal) k₂ =
      if k₂ = (s, a) then
        (if terminal then r
         else sGetQ q (s, a) + sr_alpha *
           (r + sr_gamma * Learning.listMaxQ
             (([Dir.left, Dir.right, Dir.up, Dir.down]).map fun a' =>
               sGetQ q (next_state, a'))
             - sGetQ q (s, a)))
      else sGetQ q k₂ := by
  simp only [sr_update_q_table]
  rw [sGetQ_sSetQ]

end SimpleReflexRL

namespace AllagentsRL

/-- The name `state` read by the final line of allagents.py's
`LearningAgent.update_q_table` resolves neither locally nor in the
module globals (nor in Python's builtins), so every call raises
`NameError` before storing anything. -/
theorem al_update_q_table_raises (q : AQTable) (os : ALState) (a : Fin 4) (r : Rat)
    (ns : ALState) :
    al_update_q_table q os a r ns =
      Except.error "NameError: name state is not defined" := by
  have h : state_name_resolves = false := by decide
  simp only [al_update_q_table, h, Bool.false_eq_true, if_false]

theorem al_make_move_raises (g : Allagents.AGame) (q : AQTable) (eps : Rat)
    (s0 : ALState) (la : Fin 4) (lsc : Int) (re : Bool) (rp : Nat) :
    al_make_move g q eps (some s0) la lsc re rp =
      Except.error "NameError: name state is not defined" := by
  simp only [al_make_move, al_update_q_table_raises, Except.map, Except.bind]

end AllagentsRL

/-- C2: every Q-table update claimed to follow
`Q(s,a) += alpha * (r + gamma * max_legal Q(s',.) - Q(s,a))` with the
max over the actions legal from `s'` and plain `r` on terminal
transitions.  Amended: only learning.py's `update_q_table` follows that
rule (with a 0 continuation when `s'` has no legal action);
simplereflex.py's `_update_q_table` takes the max over all four actions
with no legality filter (terminal target `r`); and allagents.py's
`update_q_table` raises `NameError` on every call and never writes. -/
theorem q_update_rule_amended :
    (∀ (t : Learning.Table) (s : Learning.LState) (a : Fin 4) (r : Rat)
        (s' : Learning.LState) (done : Bool) (s₂ : Learning.LState) (a₂ : Fin 4),
      Learning.rowGet (Learning.getQRow (Learning.update_q_table t s a r s' done) s₂) a₂ =
        if s₂ = s ∧ a₂ = a then
          Learning.rowGet (Learning.getQRow t s) a + Learning.learning_rate *
            ((if done then r
              else r + Learning.discount_factor *
                (if (Learning.get_valid_actions_for_state s').isEmpty then 0
                 else Learning.listMaxQ ((Learning.get_valid_actions_for_state s').map fun i =>
                   Learning.rowGet (Learning.getQRow t s') i)))
              - Learning.rowGet (Learning.getQRow t s) a)
        else Learning.rowGet (Learning.getQRow t s₂) a₂) ∧
    (∀ (q : SimpleReflexRL.SQTable) (s : SimpleReflexRL.SRState) (a : Dir) (r : Rat)
        (next_state : SimpleReflexRL.SRState) (terminal : Bool)
        (k₂ : SimpleReflexRL.SRState × Dir),
      SimpleReflexRL.sGetQ
          (SimpleReflexRL.sr_update_q_table q s a r next_state terminal) k₂ =
        if k₂ = (s, a) then
          (if terminal then r
           else SimpleReflexRL.sGetQ q (s, a) + SimpleReflexRL.sr_alpha *
             (r + SimpleReflexRL.sr_gamma * Learning.listMaxQ
               (([Dir.left, Dir.right, Dir.up, Dir.down]).map fun a' =>
                 SimpleReflexRL.sGetQ q (next_state, a'))
               - SimpleReflexRL.sGetQ q (s, a)))
        else SimpleReflexRL.sGetQ q k₂) ∧
    (∀ (q : AllagentsRL.AQTable) (os : AllagentsRL.ALState) (a : Fin 4) (r : Rat)
        (ns : AllagentsRL.ALState),
      AllagentsRL.al_update_q_table q os a r ns =
        Except.error "NameError: name state is not defined") :=
  ⟨Learning.update_q_table_lookup, SimpleReflexRL.sr_update_lookup,
    AllagentsRL.al_update_q_table_raises⟩

/-- C2 counterexample: a concrete non-terminal simplereflex.py update in
which the only positive Q-value at the next state belongs to an action
that is dangerous there (`left`, danger bit set).  The claimed rule
(max over legal actions only) would store -0.1; the code stores 8.9. -/
theorem q_update_legality_counterexample :
    SimpleReflexRL.sGetQ
        (SimpleReflexRL.sr_update_q_table srCounterTable srCounterOld Dir.left (-1)
          srCounterNext false)
        (srCounterOld, Dir.left) = 89 / 10 ∧
    SimpleReflexRL.sGetQ srCounterTable (srCounterOld, Dir.left)
      + SimpleReflexRL.sr_alpha * ((-1) + SimpleReflexRL.sr_gamma *
          Learning.listMaxQ ((SimpleReflexRL.claimLegalActions srCounterNext).map fun a' =>
            SimpleReflexRL.sGetQ srCounterTable (srCounterNext, a'))
        - SimpleReflexRL.sGetQ srCounterTable (srCounterOld, Dir.left)) = -(1 / 10) ∧
    (89 / 10 : Rat) ≠ -(1 / 10) := by
  refine ⟨?_, ?_, by norm_num⟩
  · simp [SimpleReflexRL.sr_update_q_table, SimpleReflexRL.sGetQ,
      SimpleReflexRL.sSetQ, srCounterTable, srCounterOld, srCounterNext,
      SimpleReflexRL.sr_alpha, SimpleReflexRL.sr_gamma, Learning.listMaxQ]
    norm_num [max_def]
  · simp [SimpleReflexRL.claimLegalActions, SimpleReflexRL.sGetQ,
      srCounterTable, srCounterOld, srCounterNext, SimpleReflexRL.sr_alpha,
      SimpleReflexRL.sr_gamma, Learning.listMaxQ,
      SimpleReflexRL.dangerBit, reverseDir]

namespace AllagentsRL

theorem manhattan_nonneg (x1 y1 x2 y2 : Int) :
    0 ≤ Allagents.calculate_manhattan_distance x1 y1 x2 y2 := by
  unfold Allagents.calculate_manhattan_distance SIZE
  have h1 := Allagents.fdiv40_nonneg _ (abs_nonneg (x2 - x1))
  have h2 := Allagents.fdiv40_nonneg _ (abs_nonneg (y2 - y1))
  omega

/-- Bounds for allagents.py's apple-eaten reward: 100, plus a shaping
bonus in [0, 2], minus up to two 5-point penalties. -/
theorem al_get_reward_apple_bounds (g : Allagents.AGame) (last_score : Int)
    (h : last_score < (g.snake.length : Int) - 1) :
    90 ≤ (al_get_reward g last_score).1 ∧ (al_get_reward g last_score).1 ≤ 102 := by
  have hd0 : (0 : Int) ≤ Allagents.calculate_manhattan_distance
      (bodyCell g.snake 0).x (bodyCell g.snake 0).y g.apple.x g.apple.y :=
    manhattan_nonneg _ _ _ _
  have hm1 : (0 : Rat) ≤ max 0 (2 - (Allagents.calculate_manhattan_distance
      (bodyCell g.snake 0).x (bodyCell g.snake 0).y g.apple.x g.apple.y : Rat) * (1 / 2)) :=
    le_max_left _ _
  have hm2 : max 0 (2 - (Allagents.calculate_manhattan_distance
      (bodyCell g.snake 0).x (bodyCell g.snake 0).y g.apple.x g.apple.y : Rat) * (1 / 2)) ≤ 2 := by
    refine max_le (by norm_num) ?_
    have hc : (0 : Rat) ≤ (Allagents.calculate_manhattan_distance
        (bodyCell g.snake 0).x (bodyCell g.snake 0).y g.apple.x g.apple.y : Rat) := by
      exact_mod_cast hd0
    nlinarith
  simp only [al_get_reward]
  split_ifs <;> constructor <;> linarith

end AllagentsRL

/-- C3: terminal rewards of the learning agents.  Amended: learning.py's
`QLearningAgent.get_reward` does satisfy the claim (exactly -500 on a
terminal collision, exactly +1000 on an apple); allagents.py's
`LearningAgent.get_reward` computes `100` plus shaping in `[-10, 2]` on
an apple transition, so that reward lies in `[90, 102]` and can drop
below +100 (see the counterexample); it computes no collision-specific
reward at all. -/
theorem reward_rules_amended :
    (∀ (head apple : Cell) (a : Fin 4) (ate : Bool),
      Learning.get_reward head apple a true ate ≤ -100) ∧
    (∀ (head apple : Cell) (a : Fin 4),
      (100 : Rat) ≤ Learning.get_reward head apple a false true) ∧
    (∀ (g : Allagents.AGame) (last_score : Int),
      last_score < (g.snake.length : Int) - 1 →
      90 ≤ (AllagentsRL.al_get_reward g last_score).1 ∧
        (AllagentsRL.al_get_reward g last_score).1 ≤ 102) := by
  refine ⟨?_, ?_, fun g ls h => AllagentsRL.al_get_reward_apple_bounds g ls h⟩
  · intro head apple a ate
    simp [Learning.get_reward]
    norm_num
  · intro head apple a
    simp [Learning.get_reward]
    norm_num

/-- C3 counterexample: a length-2 snake that has just eaten an apple
with its head on the left wall.  allagents.py computes 100 (apple)
+ 0 (shaping, apple 42 cells away) - 5 (wall proximity) = 95 < 100. -/
theorem apple_reward_below_100_counterexample :
    (AllagentsRL.al_get_reward rewardCounterGame 0).1 = 95 ∧ (95 : Rat) < 100 := by
  refine ⟨?_, by norm_num⟩
  have hd : Allagents.calculate_manhattan_distance 0 40 960 760 = 42 := by decide
  simp only [AllagentsRL.al_get_reward, rewardCounterGame, bodyCell, Allagents.AGame.mk.injEq]
  norm_num [hd]
  decide

/-- Witness for C3's amended theorem. -/
theorem reward_rules_amended_witness :
    Learning.get_reward (Cell.mk 40 40) (Cell.mk 120 120) 0 true false ≤ -100 ∧
    (100 : Rat) ≤ Learning.get_reward (Cell.mk 40 40) (Cell.mk 120 120) 0 false true ∧
    90 ≤ (AllagentsRL.al_get_reward rewardCounterGame 0).1 :=
  ⟨reward_rules_amended.1 (Cell.mk 40 40) (Cell.mk 120 120) 0 false,
    reward_rules_amended.2.1 (Cell.mk 40 40) (Cell.mk 120 120) 0,
    (reward_rules_amended.2.2 rewardCounterGame 0 (by decide)).1⟩

/-- C4 counterexample: learning.py's decay is guarded (`if eps > min:
eps *= decay`) rather than floored, so an epsilon just above the minimum
decays strictly below it after one episode. -/
theorem epsilon_floor_counterexample :
    Learning.epsilon_min ≤ (1001 : Rat) / 100000 ∧
    Learning.epsilon_decay_step^[1] ((1001 : Rat) / 100000) < Learning.epsilon_min := by
  constructor
  · norm_num [Learning.epsilon_min]
  · rw [Function.iterate_one]
    unfold Learning.epsilon_decay_step
    rw [if_pos (by norm_num [Learning.epsilon_min])]
    norm_num [Learning.epsilon_min, Learning.epsilon_decay]

/-- C4: the epsilon floor.  Amended: allagents.py's per-move update
(`max(min_epsilon, eps * decay)`) never goes below its minimum, but
learning.py's guarded per-episode decay can undershoot once, and is
bounded below only by `epsilon_min * epsilon_decay` (= 0.00999). -/
theorem epsilon_floor_amended :
    (∀ (e : Rat) (n : Nat), Learning.epsilon_min ≤ e →
      Learning.epsilon_min * Learning.epsilon_decay ≤ Learning.epsilon_decay_step^[n] e) ∧
    (∀ e : Rat, AllagentsRL.al_min_epsilon ≤ AllagentsRL.al_epsilon_step e) := by
  constructor
  · intro e n he
    have key : ∀ (m : Nat) (x : Rat),
        Learning.epsilon_min * Learning.epsilon_decay ≤ x →
        Learning.epsilon_min * Learning.epsilon_decay ≤ Learning.epsilon_decay_step^[m] x := by
      intro m
      induction m with
      | zero => intro x hx; simpa using hx
      | succ k ih =>
        intro x hx
        rw [Function.iterate_succ_apply]
        apply ih
        unfold Learning.epsilon_decay_step
        split
        · next hgt =>
          have hx : Learning.epsilon_min ≤ x := le_of_lt hgt
          have hd0 : (0 : Rat) ≤ Learning.epsilon_decay := by
            norm_num [Learning.epsilon_decay]
          exact mul_le_mul_of_nonneg_right hx hd0
        · exact hx
    refine key n e ?_
    have h1 : Learning.epsilon_min * Learning.epsilon_decay ≤ Learning.epsilon_min := by
      norm_num [Learning.epsilon_min, Learning.epsilon_decay]
    linarith
  · intro e
    exact le_max_left _ _

/-- Witness for C4's amended theorem. -/
theorem epsilon_floor_amended_witness :
    Learning.epsilon_min ≤ (1 : Rat) ∧
    Learning.epsilon_min * Learning.epsilon_decay ≤ Learning.epsilon_decay_step^[5] 1 ∧
    AllagentsRL.al_min_epsilon ≤ AllagentsRL.al_epsilon_step (1 / 2) :=
  ⟨by norm_num [Learning.epsilon_min],
    epsilon_floor_amended.1 1 5 (by norm_num [Learning.epsilon_min]),
    epsilon_floor_amended.2 (1 / 2)⟩

/-- C10: allagents.py's `LearningAgent.update_q_table` raises
`NameError` on every call (its final store references the unbound name
`state`; the parameter is `old_state`), and since `make_move` performs
an update whenever a previous state is remembered, every post-first
`make_move` call fails with that `NameError`. -/
theorem learning_agent_name_error :
    (∀ (q : AllagentsRL.AQTable) (os : AllagentsRL.ALState) (a : Fin 4) (r : Rat)
        (ns : AllagentsRL.ALState),
      AllagentsRL.al_update_q_table q os a r ns =
        Except.error "NameError: name state is not defined") ∧
    (∀ (g : Allagents.AGame) (q : AllagentsRL.AQTable) (eps : Rat)
        (s0 : AllagentsRL.ALState) (la : Fin 4) (lsc : Int) (re : Bool) (rp : Nat),
      AllagentsRL.al_make_move g q eps (some s0) la lsc re rp =
        Except.error "NameError: name state is not defined") :=
  ⟨AllagentsRL.al_update_q_table_raises, AllagentsRL.al_make_move_raises⟩

/-! ### Breadth-first search theory (claims C1, C6, C7) -/

namespace Search

theorem expand_cons (free : Cell → Bool) (cell : Cell) (fd : Dir) (depth : Nat)
    (d : Dir) (dirs : List Dir) (q : List Entry) (v : List Cell) :
    expand free (d :: dirs) cell fd depth q v =
      if stepCell cell d ∈ v then expand free dirs cell fd depth q v
      else if free (stepCell cell d) = true then
        expand free dirs cell fd depth
          (q ++ [(stepCell cell d, fd, depth + 1)]) (v ++ [stepCell cell d])
      else expand free dirs cell fd depth q v := by
  by_cases h1 : stepCell cell d ∈ v
  · rw [if_pos h1]
    simp only [expand, List.foldl_cons, if_pos h1]
  · rw [if_neg h1]
    by_cases h2 : free (stepCell cell d) = true
    · rw [if_pos h2]
      simp only [expand, List.foldl_cons, if_neg h1, if_pos h2]
    · rw [if_neg h2]
      simp only [expand, List.foldl_cons, if_neg h1]
      rw [if_neg h2]

theorem expand_spec (free : Cell → Bool) (cell : Cell) (fd : Dir) (depth : Nat) :
    ∀ (dirs : List Dir) (q : List Entry) (v : List Cell),
      ∃ E : List Entry,
        expand free dirs cell fd depth q v = (q ++ E, v ++ E.map fun e => e.1) ∧
        (∀ e ∈ E, (∃ d ∈ dirs, e.1 = stepCell cell d) ∧ e.2.1 = fd ∧ e.2.2 = depth + 1 ∧
          free e.1 = true ∧ e.1 ∉ v) ∧
        (E.map fun e => e.1).Nodup ∧
        E.length ≤ dirs.length ∧
        (∀ d ∈ dirs, free (stepCell cell d) = true →
          stepCell cell d ∈ v ∨ stepCell cell d ∈ E.map fun e => e.1) := by
  intro dirs
  induction dirs with
  | nil =>
    intro q v
    exact ⟨[], by simp [expand], by simp, by simp, by simp, by simp⟩
  | cons d dirs ih =>
    intro q v
    rw [expand_cons]
    by_cases h1 : stepCell cell d ∈ v
    · rw [if_pos h1]
      obtain ⟨E, he, hprop, hnodup, hlen, hcompl⟩ := ih q v
      refine ⟨E, he, ?_, hnodup, by simpa using Nat.le_succ_of_le hlen, ?_⟩
      · intro e hmem
        obtain ⟨⟨d', hd', hstep⟩, h2, h3, h4, h5⟩ := hprop e hmem
        exact ⟨⟨d', List.mem_cons_of_mem d hd', hstep⟩, h2, h3, h4, h5⟩
      · intro d' hd' hf
        rcases List.mem_cons.mp hd' with rfl | hd''
        · exact Or.inl h1
        · exact hcompl d' hd'' hf
    · rw [if_neg h1]
      by_cases h2 : free (stepCell cell d) = true
      · rw [if_pos h2]
        obtain ⟨E, he, hprop, hnodup, hlen, hcompl⟩ :=
          ih (q ++ [(stepCell cell d, fd, depth + 1)]) (v ++ [stepCell cell d])
        refine ⟨(stepCell cell d, fd, depth + 1) :: E, ?_, ?_, ?_, by simpa using hlen, ?_⟩
        · rw [he]
          simp
        · intro e hmem
          rcases List.mem_cons.mp hmem with rfl | hmem'
          · exact ⟨⟨d, List.mem_cons_self d dirs, rfl⟩, rfl, rfl, h2, h1⟩
          · obtain ⟨⟨d', hd', hstep⟩, hb2, hb3, hb4, hb5⟩ := hprop e hmem'
            refine ⟨⟨d', List.mem_cons_of_mem d hd', hstep⟩, hb2, hb3, hb4, ?_⟩
            intro hc
            exact hb5 (List.mem_append_left _ hc)
        · rw [List.map_cons]
          refine List.nodup_cons.mpr ⟨?_, hnodup⟩
          intro hc
          obtain ⟨e, hmem, hee⟩ := List.mem_map.mp hc
          obtain ⟨_, _, _, _, hb5⟩ := hprop e hmem
          rw [hee] at hb5
          exact hb5 (List.mem_append_right _ (List.mem_singleton.mpr rfl))
        · intro d' hd' hf
          rcases List.mem_cons.mp hd' with rfl | hd''
          · exact Or.inr (by simp)
          · rcases hcompl d' hd'' hf with hin | hin
            · rcases List.mem_append.mp hin with hin' | hin'
              · exact Or.inl hin'
              · exact Or.inr (by simp [List.mem_singleton.mp hin'])
            · exact Or.inr (List.mem_cons_of_mem _ hin)
      · rw [if_neg h2]
        obtain ⟨E, he, hprop, hnodup, hlen, hcompl⟩ := ih q v
        refine ⟨E, he, ?_, hnodup, by simpa using Nat.le_succ_of_le hlen, ?_⟩
        · intro e hmem
          obtain ⟨⟨d', hd', hstep⟩, hb2, hb3, hb4, hb5⟩ := hprop e hmem
          exact ⟨⟨d', List.mem_cons_of_mem d hd', hstep⟩, hb2, hb3, hb4, hb5⟩
        · intro d' hd' hf
          rcases List.mem_cons.mp hd' with rfl | hd''
          · exact absurd hf h2
          · exact hcompl d' hd'' hf

theorem capLe_of_le {dcap : Option Nat} {j k : Nat} (h : j ≤ k) (hk : capLe dcap k) :
    capLe dcap j := by
  cases dcap with
  | none => trivial
  | some m => exact le_trans h hk

theorem capLt_of_lt {dcap : Option Nat} {j k : Nat} (h : j < k) (hk : capLe dcap k) :
    capLt dcap j := by
  cases dcap with
  | none => trivial
  | some m => exact lt_of_lt_of_le h hk

theorem capLe_succ_of_capLt {dcap : Option Nat} {k : Nat} (h : capLt dcap k) :
    capLe dcap (k + 1) := by
  cases dcap with
  | none => trivial
  | some m => exact Nat.succ_le_of_lt h

theorem dreach_of_dreachD {free : Cell → Bool} {seeds : List Entry} {d : Dir}
    {k : Nat} {c : Cell} (h : dreachD free seeds d k c) : dreach free seeds k c := by
  unfold dreachD at h
  obtain ⟨e, he, _, n, hp, hk⟩ := h
  exact ⟨e, he, n, hp, hk⟩

theorem boardFinset_card_le : boardFinset.card ≤ 800000 := by
  unfold boardFinset
  refine le_trans Finset.card_image_le ?_
  rw [Finset.card_product, Int.card_Icc, Int.card_Icc]
  decide

set_option linter.constructorNameAsVariable false in
theorem mem_boardFinset {c : Cell} :
    c ∈ boardFinset ↔ 0 ≤ c.x ∧ c.x ≤ 999 ∧ 0 ≤ c.y ∧ c.y ≤ 799 := by
  unfold boardFinset
  rw [Finset.mem_image]
  constructor
  · rintro ⟨p, hp, rfl⟩
    rw [Finset.mem_product, Finset.mem_Icc, Finset.mem_Icc] at hp
    exact ⟨hp.1.1, hp.1.2, hp.2.1, hp.2.2⟩
  · rintro ⟨h1, h2, h3, h4⟩
    refine ⟨(c.x, c.y), ?_, rfl⟩
    rw [Finset.mem_product, Finset.mem_Icc, Finset.mem_Icc]
    exact ⟨⟨h1, h2⟩, ⟨h3, h4⟩⟩

theorem visited_length_le (seeds : List Entry) (v : List Cell) (hnd : v.Nodup)
    (hib : ∀ c ∈ v, c ∈ boardFinset ∨ c ∈ seeds.map fun e => e.1)
    (hs : seeds.length ≤ 4) : v.length ≤ 800004 := by
  have h1 : v.toFinset ⊆ boardFinset ∪ (seeds.map fun e => e.1).toFinset := by
    intro x hx
    rcases hib x (List.mem_toFinset.mp hx) with h | h
    · exact Finset.mem_union_left _ h
    · exact Finset.mem_union_right _ (List.mem_toFinset.mpr h)
  have h2 : v.toFinset.card ≤ boardFinset.card + (seeds.map fun e => e.1).toFinset.card :=
    le_trans (Finset.card_le_card h1) (Finset.card_union_le _ _)
  have h3 : (seeds.map fun e => e.1).toFinset.card ≤ seeds.length := by
    refine le_trans (List.toFinset_card_le _) ?_
    simp
  rw [List.toFinset_card_of_nodup hnd] at h2
  have h4 := boardFinset_card_le
  omega

theorem inv_complete {free : Cell → Bool} {seeds : List Entry} {tgt : Option Cell}
    {dcap : Option Nat} {q : List Entry} {v : List Cell}
    (inv : Inv free seeds tgt dcap q v) :
    ∀ k c, dreach free seeds k c → capLe dcap k →
      (∀ e ∈ q, k ≤ e.2.2) → c ∈ v := by
  intro k
  induction k using Nat.strong_induction_on with
  | _ k ih =>
    intro c hre hcap hq
    unfold dreach at hre
    obtain ⟨e, he, n, hp, hk⟩ := hre
    cases hp with
    | refl => exact inv.seedCells e he
    | step h d hf =>
      rename_i m b
      classical
      have hb : dreach free seeds (e.2.2 + m) b := ⟨e, he, m, h, rfl⟩
      have hex : ∃ j, dreach free seeds j b := ⟨e.2.2 + m, hb⟩
      have hj0 : dreach free seeds (Nat.find hex) b := Nat.find_spec hex
      have hj0min : ∀ j, dreach free seeds j b → Nat.find hex ≤ j :=
        fun j hj => Nat.find_min' hex hj
      have hle : Nat.find hex ≤ e.2.2 + m := Nat.find_min' hex hb
      have hlt : Nat.find hex < k := by omega
      have hbv : b ∈ v :=
        ih (Nat.find hex) hlt b hj0 (capLe_of_le (le_of_lt hlt) hcap)
          (fun e' he' => le_trans (le_of_lt hlt) (hq e' he'))
      have hnoq : ∀ e' ∈ q, e'.1 ≠ b := by
        intro e' he' heq
        have hmin' := (inv.entries e' he').2.2.1
        have h1 : e'.2.2 ≤ Nat.find hex := by
          refine hmin' (Nat.find hex) ?_
          rw [heq]
          exact hj0
        have h2 := hq e' he'
        omega
      exact inv.closed b hbv hnoq (Nat.find hex) hj0 hj0min
        (capLt_of_lt hlt hcap) d hf

theorem bfsCore_zero (free : Cell → Bool) (dirs : List Dir) (tgt : Option Cell)
    (dcap ccap : Option Nat) (q : List Entry) (v : List Cell) (c : Nat) :
    bfsCore free dirs tgt dcap ccap 0 q v c = BfsResult.mk v c none := rfl

theorem bfsCore_succ_nil (free : Cell → Bool) (dirs : List Dir) (tgt : Option Cell)
    (dcap ccap : Option Nat) (fuel : Nat) (v : List Cell) (c : Nat) :
    bfsCore free dirs tgt dcap ccap (fuel + 1) [] v c = BfsResult.mk v c none := rfl

theorem bfsCore_succ_cons (free : Cell → Bool) (dirs : List Dir) (tgt : Option Cell)
    (dcap ccap : Option Nat) (fuel : Nat) (cell : Cell) (fd : Dir) (depth : Nat)
    (rest : List Entry) (v : List Cell) (c : Nat) :
    bfsCore free dirs tgt dcap ccap (fuel + 1) ((cell, fd, depth) :: rest) v c =
      if capStop ccap c then BfsResult.mk v c none
      else if atTarget tgt cell then BfsResult.mk v c (some fd)
      else if depthStop dcap depth then bfsCore free dirs tgt dcap ccap fuel rest v (c + 1)
      else
        bfsCore free dirs tgt dcap ccap fuel
          (expand free dirs cell fd depth rest v).1
          (expand free dirs cell fd depth rest v).2 (c + 1) := rfl

theorem Inv_skip {free : Cell → Bool} {seeds : List Entry} {tgt : Option Cell}
    {dcap : Option Nat} {cell : Cell} {fd : Dir} {depth : Nat}
    {rest : List Entry} {v : List Cell}
    (inv : Inv free seeds tgt dcap ((cell, fd, depth) :: rest) v)
    (hnt : atTarget tgt cell = false)
    (hds : depthStop dcap depth = true) :
    Inv free seeds tgt dcap rest v := by
  refine ⟨(List.pairwise_cons.mp inv.sorted).2, ?_, ?_, inv.seedCells, inv.vSound, ?_,
    inv.vNodup, inv.inBoard, ?_⟩
  · intro e1 h1 e2 h2
    exact inv.twoLayer e1 (List.mem_cons_of_mem _ h1) e2 (List.mem_cons_of_mem _ h2)
  · intro e h1
    exact inv.entries e (List.mem_cons_of_mem _ h1)
  · intro c hcv hnq j hj hjmin hjlt d hf
    by_cases hcc : c = cell
    · exfalso
      have hhead := inv.entries (cell, fd, depth) (List.mem_cons_self _ _)
      have hj' : dreach free seeds j cell := by rw [← hcc]; exact hj
      have hdle : depth ≤ j := hhead.2.2.1 j hj'
      have hdj : j ≤ depth := hjmin depth (by rw [hcc]; exact dreach_of_dreachD hhead.2.1)
      cases dcap with
      | none => simp [depthStop] at hds
      | some m =>
        have h1 : j < m := hjlt
        have h2 : m ≤ depth := by simpa [depthStop] using hds
        omega
    · refine inv.closed c hcv ?_ j hj hjmin hjlt d hf
      intro e' he'
      rcases List.mem_cons.mp he' with rfl | h
      · exact fun hh => hcc hh.symm
      · exact hnq e' h
  · intro t ht htv
    obtain ⟨e, he, hee⟩ := inv.targetInQ t ht htv
    rcases List.mem_cons.mp he with rfl | h
    · exfalso
      rw [ht] at hnt
      simp only [atTarget, decide_eq_false_iff_not] at hnt
      exact hnt hee
    · exact ⟨e, h, hee⟩

theorem Inv_expand {free : Cell → Bool} {dirs : List Dir} {seeds : List Entry}
    {tgt : Option Cell} {dcap : Option Nat} {cell : Cell} {fd : Dir} {depth : Nat}
    {rest : List Entry} {v : List Cell}
    (inv : Inv free seeds tgt dcap ((cell, fd, depth) :: rest) v)
    (hdirs : ∀ d : Dir, d ∈ dirs)
    (hfree : ∀ x, free x = true → x ∈ boardFinset)
    (hnt : atTarget tgt cell = false)
    (hds : depthStop dcap depth = false) :
    ∃ m : Nat, (expand free dirs cell fd depth rest v).1.length = rest.length + m ∧
      (expand free dirs cell fd depth rest v).2.length = v.length + m ∧
      m ≤ dirs.length ∧
      Inv free seeds tgt dcap (expand free dirs cell fd depth rest v).1
        (expand free dirs cell fd depth rest v).2 := by
  obtain ⟨E, heq, hprop, hEnodup, hElen, hcompl⟩ := expand_spec free cell fd depth dirs rest v
  have hhead := inv.entries (cell, fd, depth) (List.mem_cons_self _ _)
  have hsortedc := List.pairwise_cons.mp inv.sorted
  have hcapd : capLt dcap depth := by
    cases dcap with
    | none => trivial
    | some m =>
      have h1 : ¬ (m ≤ depth) := by simpa [depthStop] using hds
      exact Nat.lt_of_not_le h1
  have hqb : ∀ j, j ≤ depth → ∀ e' ∈ (cell, fd, depth) :: rest, j ≤ e'.2.2 := by
    intro j hj e' he'
    rcases List.mem_cons.mp he' with rfl | h
    · exact hj
    · exact le_trans hj (hsortedc.1 e' h)
  have hEmin : ∀ e ∈ E, ∀ j, dreach free seeds j e.1 → depth + 1 ≤ j := by
    intro e heE j hj
    by_contra hlt
    have hjle : j ≤ depth := by omega
    have hin : e.1 ∈ v :=
      inv_complete inv j e.1 hj (capLe_of_le hjle hhead.2.2.2) (hqb j hjle)
    exact (hprop e heE).2.2.2.2 hin
  have hh2 := hhead.2.1
  unfold dreachD at hh2
  have hEdreach : ∀ e ∈ E, dreachD free seeds fd (depth + 1) e.1 := by
    intro e heE
    obtain ⟨⟨d, hd, hstep⟩, he21, he22, hfE, _⟩ := hprop e heE
    obtain ⟨es, hes, hfd, n, hp, hk⟩ := hh2
    rw [hstep]
    have hk2 : depth = es.2.2 + n := hk
    refine ⟨es, hes, hfd, n + 1, PathN.step hp d ?_, by omega⟩
    rw [← hstep]
    exact hfE
  refine ⟨E.length, by rw [heq]; simp, by rw [heq]; simp, hElen, ?_⟩
  rw [heq]
  refine ⟨?_, ?_, ?_, ?_, ?_, ?_, ?_, ?_, ?_⟩
  · rw [List.pairwise_append]
    refine ⟨hsortedc.2, ?_, ?_⟩
    · refine List.pairwise_of_forall_mem_list ?_
      intro a ha b hb
      rw [(hprop a ha).2.2.1, (hprop b hb).2.2.1]
    · intro a ha b hb
      rw [(hprop b hb).2.2.1]
      exact inv.twoLayer a (List.mem_cons_of_mem _ ha) (cell, fd, depth)
        (List.mem_cons_self _ _)
  · intro e1 h1 e2 h2
    rcases List.mem_append.mp h1 with h1 | h1 <;> rcases List.mem_append.mp h2 with h2 | h2
    · exact inv.twoLayer e1 (List.mem_cons_of_mem _ h1) e2 (List.mem_cons_of_mem _ h2)
    · rw [(hprop e2 h2).2.2.1]
      have h5 : e1.2.2 ≤ depth + 1 := inv.twoLayer e1 (List.mem_cons_of_mem _ h1)
        (cell, fd, depth) (List.mem_cons_self _ _)
      omega
    · rw [(hprop e1 h1).2.2.1]
      have h5 : depth ≤ e2.2.2 := hsortedc.1 e2 h2
      omega
    · rw [(hprop e1 h1).2.2.1, (hprop e2 h2).2.2.1]
      omega
  · intro e he
    rcases List.mem_append.mp he with h | h
    · obtain ⟨h1, h2, h3, h4⟩ := inv.entries e (List.mem_cons_of_mem _ h)
      exact ⟨List.mem_append_left _ h1, h2, h3, h4⟩
    · obtain ⟨hdir, he21, he22, hfE, hnv⟩ := hprop e h
      refine ⟨List.mem_append_right _ (List.mem_map_of_mem _ h), ?_, ?_, ?_⟩
      · rw [he21, he22]
        exact hEdreach e h
      · rw [he22]
        exact hEmin e h
      · rw [he22]
        exact capLe_succ_of_capLt hcapd
  · intro e he
    exact List.mem_append_left _ (inv.seedCells e he)
  · intro x hx
    rcases List.mem_append.mp hx with h | h
    · exact inv.vSound x h
    · obtain ⟨e, heE, hee⟩ := List.mem_map.mp h
      refine ⟨depth + 1, ?_, capLe_succ_of_capLt hcapd⟩
      rw [← hee]
      exact dreach_of_dreachD (hEdreach e heE)
  · intro x hxv hnq j hj hjmin hjlt d hf
    rcases List.mem_append.mp hxv with hx | hx
    · by_cases hcc : x = cell
      · rw [hcc] at hf ⊢
        rcases hcompl d (hdirs d) hf with hin | hin
        · exact List.mem_append_left _ hin
        · exact List.mem_append_right _ hin
      · have hnq' : ∀ e' ∈ (cell, fd, depth) :: rest, e'.1 ≠ x := by
          intro e' he'
          rcases List.mem_cons.mp he' with rfl | h
          · exact fun hh => hcc hh.symm
          · exact hnq e' (List.mem_append_left _ h)
        exact List.mem_append_left _ (inv.closed x hx hnq' j hj hjmin hjlt d hf)
    · exfalso
      obtain ⟨e, heE, hee⟩ := List.mem_map.mp hx
      exact hnq e (List.mem_append_right _ heE) hee
  · refine List.Nodup.append inv.vNodup hEnodup ?_
    intro a hav haE
    obtain ⟨e, heE, hee⟩ := List.mem_map.mp haE
    refine (hprop e heE).2.2.2.2 ?_
    rw [hee]
    exact hav
  · intro x hx
    rcases List.mem_append.mp hx with h | h
    · exact inv.inBoard x h
    · obtain ⟨e, heE, hee⟩ := List.mem_map.mp h
      refine Or.inl (hfree x ?_)
      rw [← hee]
      exact (hprop e heE).2.2.2.1
  · intro t ht htv
    rcases List.mem_append.mp htv with h | h
    · obtain ⟨e, he, hee⟩ := inv.targetInQ t ht h
      rcases List.mem_cons.mp he with rfl | hr
      · exfalso
        rw [ht] at hnt
        simp only [atTarget, decide_eq_false_iff_not] at hnt
        exact hnt hee
      · exact ⟨e, List.mem_append_left _ hr, hee⟩
    · obtain ⟨e, heE, hee⟩ := List.mem_map.mp h
      exact ⟨e, List.mem_append_right _ heE, hee⟩

theorem bfsCore_run (free : Cell → Bool) (dirs : List Dir) (tgt : Option Cell)
    (dcap : Option Nat) (seeds : List Entry)
    (hdirs : ∀ d : Dir, d ∈ dirs) (hdlen : dirs.length ≤ 4)
    (hfree : ∀ x, free x = true → x ∈ boardFinset)
    (hseeds : seeds.length ≤ 4) :
    ∀ (fuel : Nat) (q : List Entry) (v : List Cell) (c : Nat),
      Inv free seeds tgt dcap q v →
      q.length + 5 * (800004 - v.length) < fuel →
      (∀ d, (bfsCore free dirs tgt dcap none fuel q v c).found = some d →
        ∃ t, tgt = some t ∧ ∃ k, dreachD free seeds d k t ∧
          (∀ j, dreach free seeds j t → k ≤ j) ∧ capLe dcap k) ∧
      ((bfsCore free dirs tgt dcap none fuel q v c).found = none →
        (∀ t, tgt = some t → ∀ k, dreach free seeds k t → ¬ capLe dcap k) ∧
        (∀ x, x ∈ (bfsCore free dirs tgt dcap none fuel q v c).vis ↔
          ∃ k, dreach free seeds k x ∧ capLe dcap k) ∧
        (bfsCore free dirs tgt dcap none fuel q v c).vis.Nodup ∧
        (bfsCore free dirs tgt dcap none fuel q v c).cnt + v.length =
          c + q.length + (bfsCore free dirs tgt dcap none fuel q v c).vis.length) := by
  intro fuel
  induction fuel with
  | zero =>
    intro q v c _ hfuel
    exact absurd hfuel (Nat.not_lt_zero _)
  | succ fuel ih =>
    intro q v c inv hfuel
    match q, hfuel, inv with
    | [], hfuel, inv =>
      rw [bfsCore_succ_nil]
      refine ⟨?_, ?_⟩
      · intro d hd
        exact Option.noConfusion hd
      · intro _
        refine ⟨?_, ?_, inv.vNodup, by simp⟩
        · intro t ht k hk hcap
          obtain ⟨e, he, _⟩ := inv.targetInQ t ht
            (inv_complete inv k t hk hcap (by intro e' he'; exact absurd he' (List.not_mem_nil e')))
          exact absurd he (List.not_mem_nil e)
        · intro x
          constructor
          · intro hx
            exact inv.vSound x hx
          · intro ⟨k, hk, hcap⟩
            exact inv_complete inv k x hk hcap
              (by intro e' he'; exact absurd he' (List.not_mem_nil e'))
    | (cell, fd, depth) :: rest, hfuel, inv =>
      rw [bfsCore_succ_cons]
      rw [if_neg (by simp [capStop] : ¬ (capStop none c = true))]
      cases hat : atTarget tgt cell with
      | true =>
        rw [if_pos rfl]
        refine ⟨?_, ?_⟩
        · intro d hd
          have hfd : fd = d := Option.some.inj hd
          cases tgt with
          | none => simp [atTarget] at hat
          | some t =>
            have hct : cell = t := by simpa [atTarget] using hat
            have hhead := inv.entries (cell, fd, depth) (List.mem_cons_self _ _)
            refine ⟨t, rfl, depth, ?_, ?_, hhead.2.2.2⟩
            · rw [← hct, ← hfd]
              exact hhead.2.1
            · intro j hj
              refine hhead.2.2.1 j ?_
              rw [hct]
              exact hj
        · intro hd
          exact Option.noConfusion hd
      | false =>
        rw [if_neg Bool.false_ne_true]
        cases hds : depthStop dcap depth with
        | true =>
          rw [if_pos rfl]
          have inv' := Inv_skip inv hat hds
          have hq : ((cell, fd, depth) :: rest).length = rest.length + 1 :=
            List.length_cons _ _
          have hres := ih rest v (c + 1) inv' (by omega)
          refine ⟨hres.1, ?_⟩
          intro hnone
          obtain ⟨hb, hcc, hnd, hcnt⟩ := hres.2 hnone
          exact ⟨hb, hcc, hnd, by omega⟩
        | false =>
          rw [if_neg Bool.false_ne_true]
          obtain ⟨m, hq1, hv1, hmle, inv'⟩ := Inv_expand inv hdirs hfree hat hds
          have hvlen : (expand free dirs cell fd depth rest v).2.length ≤ 800004 :=
            visited_length_le seeds _ inv'.vNodup inv'.inBoard hseeds
          have hq : ((cell, fd, depth) :: rest).length = rest.length + 1 :=
            List.length_cons _ _
          have hres := ih (expand free dirs cell fd depth rest v).1
            (expand free dirs cell fd depth rest v).2 (c + 1) inv' (by omega)
          refine ⟨hres.1, ?_⟩
          intro hnone
          obtain ⟨hb, hcc, hnd, hcnt⟩ := hres.2 hnone
          exact ⟨hb, hcc, hnd, by omega⟩

theorem bfsCore_cnt_le (free : Cell → Bool) (dirs : List Dir) (tgt : Option Cell)
    (dcap ccap : Option Nat) :
    ∀ (fuel : Nat) (q : List Entry) (v : List Cell) (c : Nat),
      c ≤ (bfsCore free dirs tgt dcap ccap fuel q v c).cnt := by
  intro fuel
  induction fuel with
  | zero =>
    intro q v c
    exact le_rfl
  | succ fuel ih =>
    intro q v c
    match q with
    | [] => exact le_rfl
    | (cell, fd, depth) :: rest =>
      rw [bfsCore_succ_cons]
      by_cases h1 : capStop ccap c = true
      · rw [if_pos h1]
      · rw [if_neg h1]
        by_cases h2 : atTarget tgt cell = true
        · rw [if_pos h2]
        · rw [if_neg h2]
          by_cases h3 : depthStop dcap depth = true
          · rw [if_pos h3]
            exact le_trans (Nat.le_succ c) (ih rest v (c + 1))
          · rw [if_neg h3]
            exact le_trans (Nat.le_succ c) (ih _ _ (c + 1))

theorem bfsCore_capped_cnt (free : Cell → Bool) (dirs : List Dir) (tgt : Option Cell)
    (dcap : Option Nat) (m : Nat) :
    ∀ (fuel : Nat) (q : List Entry) (v : List Cell) (c : Nat),
      (bfsCore free dirs tgt dcap (some m) fuel q v c).cnt =
        max c (min (bfsCore free dirs tgt dcap none fuel q v c).cnt m) := by
  intro fuel
  induction fuel with
  | zero =>
    intro q v c
    show c = max c (min c m)
    omega
  | succ fuel ih =>
    intro q v c
    match q with
    | [] =>
      show c = max c (min c m)
      omega
    | (cell, fd, depth) :: rest =>
      rw [bfsCore_succ_cons]
      by_cases h1 : m ≤ c
      · have hcs : capStop (some m) c = true := by simp [capStop, h1]
        rw [if_pos hcs]
        have hle : c ≤ (bfsCore free dirs tgt dcap none (fuel + 1)
            ((cell, fd, depth) :: rest) v c).cnt := bfsCore_cnt_le _ _ _ _ _ _ _ _ _
        have hgoal : (BfsResult.mk v c none).cnt = c := rfl
        rw [hgoal]
        omega
      · have hcs : ¬ (capStop (some m) c = true) := by simp [capStop, h1]
        rw [if_neg hcs]
        rw [bfsCore_succ_cons]
        rw [if_neg (by simp [capStop] : ¬ (capStop none c = true))]
        by_cases h2 : atTarget tgt cell = true
        · rw [if_pos h2, if_pos h2]
          show c = max c (min c m)
          omega
        · rw [if_neg h2, if_neg h2]
          by_cases h3 : depthStop dcap depth = true
          · rw [if_pos h3, if_pos h3, ih rest v (c + 1)]
            have hle : c + 1 ≤ (bfsCore free dirs tgt dcap none fuel rest v (c + 1)).cnt :=
              bfsCore_cnt_le _ _ _ _ _ _ _ _ _
            omega
          · rw [if_neg h3, if_neg h3, ih _ _ (c + 1)]
            have hle : c + 1 ≤ (bfsCore free dirs tgt dcap none fuel
                (expand free dirs cell fd depth rest v).1
                (expand free dirs cell fd depth rest v).2 (c + 1)).cnt :=
              bfsCore_cnt_le _ _ _ _ _ _ _ _ _
            omega

theorem PathN_mono {f f' : Cell → Bool} (hks : ∀ x, f' x = true → f x = true)
    {a : Cell} {n : Nat} {b : Cell} (h : PathN f' a n b) : PathN f a n b := by
  induction h with
  | refl => exact PathN.refl a
  | step h d hf ih => exact PathN.step ih d (hks _ hf)

theorem PathN_first_step {free : Cell → Bool} {a : Cell} {n : Nat} {c : Cell}
    (h : PathN free a n c) :
    n = 0 ∧ c = a ∨
      ∃ d m, free (stepCell a d) = true ∧ PathN free (stepCell a d) m c ∧ n = m + 1 := by
  induction h with
  | refl => exact Or.inl ⟨rfl, rfl⟩
  | step h d hf ih =>
    rcases ih with ⟨hn, hb⟩ | ⟨d', m, hfd, hp, hnm⟩
    · subst hn
      subst hb
      exact Or.inr ⟨d, 0, hf, PathN.refl _, rfl⟩
    · exact Or.inr ⟨d', m + 1, hfd, PathN.step hp d hf, by omega⟩

theorem dreach_single_seed {free : Cell → Bool} {start : Cell} {fd : Dir} {dep : Nat}
    {k : Nat} {c : Cell} :
    dreach free [(start, fd, dep)] k c ↔ ∃ n, PathN free start n c ∧ k = dep + n := by
  constructor
  · intro h
    unfold dreach at h
    obtain ⟨e, he, n, hp, hk⟩ := h
    rw [List.mem_singleton] at he
    subst he
    exact ⟨n, hp, hk⟩
  · intro ⟨n, hp, hk⟩
    exact ⟨(start, fd, dep), List.mem_singleton.mpr rfl, n, hp, hk⟩

theorem length_le_of_nodup_subset {α : Type} [DecidableEq α] {l1 l2 : List α}
    (h1 : l1.Nodup) (h2 : l2.Nodup) (hsub : ∀ x ∈ l1, x ∈ l2) :
    l1.length ≤ l2.length := by
  rw [← List.toFinset_card_of_nodup h1, ← List.toFinset_card_of_nodup h2]
  exact Finset.card_le_card fun x hx => List.mem_toFinset.mpr (hsub x (List.mem_toFinset.mp hx))

theorem getLast?_eq_some_split {α : Type} {l : List α} {a : α} (h : l.getLast? = some a) :
    l = l.dropLast ++ [a] := by
  cases l with
  | nil => simp at h
  | cons x xs =>
    have hne : x :: xs ≠ [] := List.cons_ne_nil x xs
    rw [List.getLast?_eq_getLast _ hne] at h
    have h2 := List.dropLast_append_getLast hne
    rw [← Option.some.inj h]
    exact h2.symm

theorem dreach_mono {f f' : Cell → Bool} (hks : ∀ x, f' x = true → f x = true)
    {seeds : List Entry} {k : Nat} {c : Cell} (h : dreach f' seeds k c) :
    dreach f seeds k c := by
  unfold dreach at h ⊢
  obtain ⟨e, he, n, hp, hk⟩ := h
  exact ⟨e, he, n, PathN_mono hks hp, hk⟩

theorem Inv_init_single (free : Cell → Bool) (start : Cell) (fd : Dir)
    (dcap : Option Nat) :
    Inv free [(start, fd, 0)] none dcap [(start, fd, 0)] [start] := by
  refine ⟨?_, ?_, ?_, ?_, ?_, ?_, ?_, ?_, ?_⟩
  · exact List.pairwise_singleton _ _
  · intro e1 h1 e2 h2
    rw [List.mem_singleton] at h1 h2
    subst h1
    subst h2
    omega
  · intro e he
    rw [List.mem_singleton] at he
    subst he
    refine ⟨List.mem_singleton.mpr rfl, ⟨_, List.mem_singleton.mpr rfl, rfl, 0, PathN.refl _, rfl⟩,
      ?_, ?_⟩
    · intro j hj
      exact Nat.zero_le j
    · cases dcap with
      | none => trivial
      | some m => exact Nat.zero_le m
  · intro e he
    rw [List.mem_singleton] at he
    subst he
    exact List.mem_singleton.mpr rfl
  · intro x hx
    rw [List.mem_singleton] at hx
    subst hx
    refine ⟨0, ⟨_, List.mem_singleton.mpr rfl, 0, PathN.refl _, rfl⟩, ?_⟩
    cases dcap with
    | none => trivial
    | some m => exact Nat.zero_le m
  · intro x hx hnq j hj hjmin hjlt d hf
    rw [List.mem_singleton] at hx
    exact absurd hx.symm (hnq (start, fd, 0) (List.mem_singleton.mpr rfl))
  · exact List.nodup_singleton _
  · intro x hx
    rw [List.mem_singleton] at hx
    subst hx
    exact Or.inr (by simp)
  · intro t ht
    exact Option.noConfusion ht

theorem Inv_init_seeds (free : Cell → Bool) (seeds : List Entry) (tgt : Option Cell)
    (dcap : Option Nat)
    (hdepth : ∀ e ∈ seeds, e.2.2 = 1)
    (hnd : (seeds.map fun e => e.1).Nodup)
    (hcap : capLe dcap 1) :
    Inv free seeds tgt dcap seeds (seeds.map fun e => e.1) := by
  refine ⟨?_, ?_, ?_, ?_, ?_, ?_, hnd, ?_, ?_⟩
  · refine List.pairwise_of_forall_mem_list ?_
    intro a ha b hb
    rw [hdepth a ha, hdepth b hb]
  · intro e1 h1 e2 h2
    rw [hdepth e1 h1, hdepth e2 h2]
    omega
  · intro e he
    refine ⟨List.mem_map_of_mem _ he, ⟨e, he, rfl, 0, PathN.refl _, (Nat.add_zero _).symm⟩,
      ?_, ?_⟩
    · intro j hj
      unfold dreach at hj
      obtain ⟨e', he', n, hp, hk⟩ := hj
      rw [hdepth e he]
      rw [hdepth e' he'] at hk
      omega
    · rw [hdepth e he]
      exact hcap
  · intro e he
    exact List.mem_map_of_mem _ he
  · intro x hx
    obtain ⟨e, he, hee⟩ := List.mem_map.mp hx
    refine ⟨e.2.2, ⟨e, he, 0, ?_, (Nat.add_zero _).symm⟩, ?_⟩
    · rw [hee]
      exact PathN.refl _
    · rw [hdepth e he]
      exact hcap
  · intro x hx hnq j hj hjmin hjlt d hf
    obtain ⟨e, he, hee⟩ := List.mem_map.mp hx
    exact absurd hee (hnq e he)
  · intro x hx
    exact Or.inr hx
  · intro t ht htv
    obtain ⟨e, he, hee⟩ := List.mem_map.mp htv
    exact ⟨e, he, hee⟩

theorem PathN_prepend {free : Cell → Bool} {a : Cell} {d : Dir} {n : Nat} {c : Cell}
    (hf : free (stepCell a d) = true) (h : PathN free (stepCell a d) n c) :
    PathN free a (n + 1) c := by
  induction h with
  | refl => exact PathN.step (PathN.refl a) d hf
  | step h d2 hf2 ih => exact PathN.step ih d2 hf2

end Search

namespace Ai

theorem pathFree_mem_board (s : Snake) (c : Cell) (h : pathFree s c = true) :
    c ∈ Search.boardFinset := by
  rw [Search.mem_boardFinset]
  unfold pathFree at h
  simp only [Bool.and_eq_true, decide_eq_true_eq] at h
  obtain ⟨⟨⟨⟨h1, h2⟩, h3⟩, h4⟩, _⟩ := h
  have h2' : c.x < 1000 := h2
  have h4' : c.y < 800 := h4
  exact ⟨h1, by omega, h3, by omega⟩

theorem countFree_mem_board (s : Snake) (c : Cell) (h : countFree s c = true) :
    c ∈ Search.boardFinset := by
  rw [Search.mem_boardFinset]
  unfold countFree at h
  simp only [Bool.and_eq_true, decide_eq_true_eq] at h
  obtain ⟨⟨⟨⟨h1, h2⟩, h3⟩, h4⟩, _⟩ := h
  have h2' : c.x < 1000 := h2
  have h4' : c.y < 800 := h4
  exact ⟨h1, by omega, h3, by omega⟩

theorem pathFree_get_potential_head (s : Snake) (d : Dir)
    (hd : d ∈ valid_directions s) :
    pathFree s (get_potential_head s d) = true := by
  have hm := List.mem_filter.mp hd
  have hp := hm.2
  rw [Bool.and_eq_true, Bool.not_eq_true', Bool.not_eq_true'] at hp
  have hc := hp.2
  unfold is_potential_move_colliding at hc
  by_cases hb : 0 ≤ (get_potential_head s d).x ∧ (get_potential_head s d).x < SCREEN_W ∧
      0 ≤ (get_potential_head s d).y ∧ (get_potential_head s d).y < SCREEN_H
  · rw [if_neg (not_not_intro hb)] at hc
    unfold pathFree
    rw [Bool.and_eq_true, Bool.not_eq_true', hc]
    refine ⟨?_, rfl⟩
    simp only [Bool.and_eq_true, decide_eq_true_eq]
    exact ⟨⟨⟨hb.1, hb.2.1⟩, hb.2.2.1⟩, hb.2.2.2⟩
  · rw [if_pos hb] at hc
    exact absurd hc (by simp)

theorem get_potential_head_inj (s : Snake) (d1 d2 : Dir)
    (h : get_potential_head s d1 = get_potential_head s d2) : d1 = d2 := by
  cases d1 <;> cases d2 <;>
    simp_all [get_potential_head, stepCell, bodyCell, dirDX, dirDY, Cell.mk.injEq, SIZE]

theorem bfs_seeds_depth (s : Snake) : ∀ e ∈ bfs_seeds s, e.2.2 = 1 := by
  intro e he
  obtain ⟨d, hd, rfl⟩ := List.mem_map.mp he
  rfl

theorem bfs_seeds_cells_nodup (s : Snake) :
    ((bfs_seeds s).map fun e => e.1).Nodup := by
  have heq : ((bfs_seeds s).map fun e => e.1) =
      (valid_directions s).map fun d => get_potential_head s d := by
    simp [bfs_seeds]
  rw [heq]
  refine List.Nodup.map_on ?_ ?_
  · intro x hx y hy hxy
    exact get_potential_head_inj s x y hxy
  · unfold valid_directions
    exact List.Nodup.filter _ (by decide)

theorem bfs_seeds_length (s : Snake) : (bfs_seeds s).length ≤ 4 := by
  have h1 : (bfs_seeds s).length = (valid_directions s).length := List.length_map _ _
  have h2 : (valid_directions s).length ≤ dirList4.length := List.length_filter_le _ _
  have h3 : dirList4.length = 4 := rfl
  omega

theorem bfs_pathfind_spec (s : Snake) (target : Cell) :
    (∀ d, bfs_pathfind s target = some d →
      ∃ k, Search.dreachD (pathFree s) (bfs_seeds s) d k target ∧
        (∀ j, Search.dreach (pathFree s) (bfs_seeds s) j target → k ≤ j) ∧ k ≤ 15) ∧
    (bfs_pathfind s target = none →
      ∀ k, Search.dreach (pathFree s) (bfs_seeds s) k target → 15 < k) := by
  have hinv := Search.Inv_init_seeds (pathFree s) (bfs_seeds s) (some target) (some 15)
    (bfs_seeds_depth s) (bfs_seeds_cells_nodup s) (by show (1:Nat) ≤ 15; omega)
  have hlen := bfs_seeds_length s
  have hrun := Search.bfsCore_run (pathFree s) dirList4 (some target) (some 15) (bfs_seeds s)
    (by intro d; cases d <;> simp [dirList4]) (by decide)
    (pathFree_mem_board s) hlen Search.bfsFuel (bfs_seeds s)
    ((bfs_seeds s).map fun e => e.1) 0 hinv
    (by
      have h1 : (800004 - ((bfs_seeds s).map fun e => e.1).length) ≤ 800004 := by omega
      unfold Search.bfsFuel
      omega)
  have hveq : ((bfs_seeds s).map fun e => e.1) =
      (valid_directions s).map fun d => get_potential_head s d := by
    simp [bfs_seeds]
  rw [hveq] at hrun
  unfold bfs_pathfind
  constructor
  · intro d hd
    obtain ⟨t, ht, k, h1, h2, h3⟩ := hrun.1 d hd
    have htt : target = t := Option.some.inj ht
    subst htt
    exact ⟨k, h1, h2, h3⟩
  · intro hnone k hk
    have hnc := (hrun.2 hnone).1 target rfl k hk
    exact Nat.lt_of_not_le hnc

theorem smart_agent_bfs_fallback (s : Snake) (apple : Cell)
    (h : ∀ n, ¬ Search.PathN (pathFree s) (bodyCell s 0) (n + 1) apple) :
    bfs_pathfind s apple = none ∧
    smart_agent_bfs s apple =
      (if (valid_directions s).isEmpty then SmartOutcome.noSafeMoves
       else SmartOutcome.fallbackToSafety) := by
  have hnone : bfs_pathfind s apple = none := by
    cases hf : bfs_pathfind s apple with
    | none => rfl
    | some d =>
      exfalso
      obtain ⟨k, hD, _, _⟩ := (bfs_pathfind_spec s apple).1 d hf
      unfold Search.dreachD at hD
      obtain ⟨e, he, hfd, n, hp, hk⟩ := hD
      obtain ⟨d', hd', he'⟩ := List.mem_map.mp he
      have hfree1 : pathFree s (get_potential_head s d') = true :=
        pathFree_get_potential_head s d' hd'
      have he1 : e.1 = stepCell (bodyCell s 0) d' := by
        rw [← he']
        rfl
      have hp' : Search.PathN (pathFree s) (stepCell (bodyCell s 0) d') n apple := by
        rw [← he1]
        exact hp
      exact h n (Search.PathN_prepend hfree1 hp')
  refine ⟨hnone, ?_⟩
  unfold smart_agent_bfs
  by_cases he : (valid_directions s).isEmpty = true
  · rw [if_pos he, if_pos he]
  · rw [if_neg he, if_neg he, hnone]

theorem count_spec (s : Snake) (start : Cell) :
    ∃ vis : List Cell, vis.Nodup ∧
      (∀ x, x ∈ vis ↔
        ∃ k, Search.dreach (countFree s) [(start, Dir.left, 0)] k x ∧ k ≤ 8) ∧
      count_available_space s start = vis.length := by
  have hinv := Search.Inv_init_single (countFree s) start Dir.left (some 8)
  have hrun := Search.bfsCore_run (countFree s) dirList4 none (some 8)
    [(start, Dir.left, 0)]
    (by intro d; cases d <;> simp [dirList4]) (by decide)
    (countFree_mem_board s) (by simp) Search.bfsFuel [(start, Dir.left, 0)] [start] 0 hinv
    (by simp only [List.length_singleton]; unfold Search.bfsFuel; omega)
  have hfound : (Search.bfsCore (countFree s) dirList4 none (some 8) none Search.bfsFuel
      [(start, Dir.left, 0)] [start] 0).found = none := by
    cases hf : (Search.bfsCore (countFree s) dirList4 none (some 8) none Search.bfsFuel
        [(start, Dir.left, 0)] [start] 0).found with
    | none => rfl
    | some d =>
      obtain ⟨t, ht, _⟩ := hrun.1 d hf
      exact Option.noConfusion ht
  obtain ⟨_, hiff, hnd, hcnt⟩ := hrun.2 hfound
  refine ⟨_, hnd, hiff, ?_⟩
  unfold count_available_space
  have h1 : ([(start, Dir.left, (0:Nat))] : List Search.Entry).length = 1 := rfl
  have h2 : ([start] : List Cell).length = 1 := rfl
  omega

theorem count_antitone_of_free_mono (s s' : Snake) (start : Cell)
    (himp : ∀ c, countFree s' c = true → countFree s c = true) :
    count_available_space s' start ≤ count_available_space s start := by
  obtain ⟨v1, hnd1, hiff1, he1⟩ := count_spec s' start
  obtain ⟨v2, hnd2, hiff2, he2⟩ := count_spec s start
  rw [he1, he2]
  refine Search.length_le_of_nodup_subset hnd1 hnd2 ?_
  intro x hx
  obtain ⟨k, hk, hc⟩ := (hiff1 x).mp hx
  exact (hiff2 x).mpr ⟨k, Search.dreach_mono himp hk, hc⟩

end Ai

namespace Reflexagent

theorem accFree_mem_board (s : Snake) (c : Cell) (h : accFree s c = true) :
    c ∈ Search.boardFinset := by
  rw [Search.mem_boardFinset]
  unfold accFree at h
  simp only [Bool.and_eq_true, decide_eq_true_eq] at h
  obtain ⟨⟨⟨⟨h1, h2⟩, h3⟩, h4⟩, _⟩ := h
  have h2' : c.x < 1000 := h2
  have h4' : c.y < 800 := h4
  exact ⟨h1, by omega, h3, by omega⟩

theorem acc_uncapped_spec (s : Snake) (start : Cell) :
    ∃ vis : List Cell, vis.Nodup ∧
      (∀ x, x ∈ vis ↔
        ∃ k, Search.dreach (accFree s) [(start, Dir.left, 0)] k x ∧ Search.capLe none k) ∧
      (Search.bfsCore (accFree s) reflexDirs none none none Search.bfsFuel
        [(start, Dir.left, 0)] [start] 0).cnt = vis.length := by
  have hinv := Search.Inv_init_single (accFree s) start Dir.left none
  have hrun := Search.bfsCore_run (accFree s) reflexDirs none none
    [(start, Dir.left, 0)]
    (by intro d; cases d <;> simp [reflexDirs]) (by decide)
    (accFree_mem_board s) (by simp) Search.bfsFuel [(start, Dir.left, 0)] [start] 0 hinv
    (by simp only [List.length_singleton]; unfold Search.bfsFuel; omega)
  have hfound : (Search.bfsCore (accFree s) reflexDirs none none none Search.bfsFuel
      [(start, Dir.left, 0)] [start] 0).found = none := by
    cases hf : (Search.bfsCore (accFree s) reflexDirs none none none Search.bfsFuel
        [(start, Dir.left, 0)] [start] 0).found with
    | none => rfl
    | some d =>
      obtain ⟨t, ht, _⟩ := hrun.1 d hf
      exact Option.noConfusion ht
  obtain ⟨_, hiff, hnd, hcnt⟩ := hrun.2 hfound
  refine ⟨_, hnd, hiff, ?_⟩
  have h1 : ([(start, Dir.left, (0:Nat))] : List Search.Entry).length = 1 := rfl
  have h2 : ([start] : List Cell).length = 1 := rfl
  omega

theorem acc_antitone_of_free_mono (s s' : Snake) (start : Cell)
    (himp : ∀ c, accFree s' c = true → accFree s c = true) :
    bfs_accessible_spaces s' start ≤ bfs_accessible_spaces s start := by
  obtain ⟨v1, hnd1, hiff1, he1⟩ := acc_uncapped_spec s' start
  obtain ⟨v2, hnd2, hiff2, he2⟩ := acc_uncapped_spec s start
  have hsub : v1.length ≤ v2.length := by
    refine Search.length_le_of_nodup_subset hnd1 hnd2 ?_
    intro x hx
    obtain ⟨k, hk, hc⟩ := (hiff1 x).mp hx
    exact (hiff2 x).mpr ⟨k, Search.dreach_mono himp hk, hc⟩
  unfold bfs_accessible_spaces
  rw [Search.bfsCore_capped_cnt (accFree s') reflexDirs none none 100 Search.bfsFuel
    [(start, Dir.left, 0)] [start] 0]
  rw [Search.bfsCore_capped_cnt (accFree s) reflexDirs none none 100 Search.bfsFuel
    [(start, Dir.left, 0)] [start] 0]
  rw [he1] at *
  rw [he2] at *
  omega

end Reflexagent

namespace AllagentsDFS

theorem mem_dfsNeighbors (c : Cell) (d : Dir) : stepCell c d ∈ dfsNeighbors c := by
  cases d <;> simp [dfsNeighbors]

theorem dfsNeighbors_mem (c x : Cell) (h : x ∈ dfsNeighbors c) : ∃ d, x = stepCell c d := by
  simp only [dfsNeighbors, List.mem_cons, List.not_mem_nil, or_false] at h
  rcases h with h | h | h | h
  · exact ⟨Dir.right, h⟩
  · exact ⟨Dir.left, h⟩
  · exact ⟨Dir.down, h⟩
  · exact ⟨Dir.up, h⟩

theorem dfsCore_cap_eq (free : Cell → Bool) (ccap fuel : Nat) (st v : List Cell) (c : Nat)
    (h : ccap ≤ c) : dfsCore free ccap (fuel + 1) st v c = (v, c) := by
  simp only [dfsCore]
  rw [if_pos (by simpa using h)]

theorem dfsCore_nil_eq (free : Cell → Bool) (ccap fuel : Nat) (st v : List Cell) (c : Nat)
    (h : ¬ ccap ≤ c) (hg : st.getLast? = none) :
    dfsCore free ccap (fuel + 1) st v c = (v, c) := by
  simp only [dfsCore]
  rw [if_neg (by simpa using h), hg]

theorem dfsCore_visited_eq (free : Cell → Bool) (ccap fuel : Nat) (st v : List Cell)
    (c : Nat) (top : Cell) (h : ¬ ccap ≤ c) (hg : st.getLast? = some top) (hv : top ∈ v) :
    dfsCore free ccap (fuel + 1) st v c = dfsCore free ccap fuel st.dropLast v c := by
  simp only [dfsCore]
  rw [if_neg (by simpa using h), hg]
  show (if top ∈ v then _ else _) = _
  rw [if_pos hv]

theorem dfsCore_add_eq (free : Cell → Bool) (ccap fuel : Nat) (st v : List Cell)
    (c : Nat) (top : Cell) (h : ¬ ccap ≤ c) (hg : st.getLast? = some top) (hv : top ∉ v)
    (hf : free top = true) :
    dfsCore free ccap (fuel + 1) st v c =
      dfsCore free ccap fuel
        (st.dropLast ++ (dfsNeighbors top).filter fun n => ! decide (n ∈ v ++ [top]))
        (v ++ [top]) (c + 1) := by
  simp only [dfsCore]
  rw [if_neg (by simpa using h), hg]
  show (if top ∈ v then _ else _) = _
  rw [if_neg hv, if_pos hf]

theorem dfsCore_deadend_eq (free : Cell → Bool) (ccap fuel : Nat) (st v : List Cell)
    (c : Nat) (top : Cell) (h : ¬ ccap ≤ c) (hg : st.getLast? = some top) (hv : top ∉ v)
    (hf : ¬ free top = true) :
    dfsCore free ccap (fuel + 1) st v c = dfsCore free ccap fuel st.dropLast v c := by
  simp only [dfsCore]
  rw [if_neg (by simpa using h), hg]
  show (if top ∈ v then _ else _) = _
  rw [if_neg hv, if_neg hf]

theorem dfsCore_cnt_le (free : Cell → Bool) (ccap : Nat) :
    ∀ (fuel : Nat) (st v : List Cell) (c : Nat), c ≤ (dfsCore free ccap fuel st v c).2 := by
  intro fuel
  induction fuel with
  | zero =>
    intro st v c
    exact le_rfl
  | succ fuel ih =>
    intro st v c
    by_cases h1 : ccap ≤ c
    · rw [dfsCore_cap_eq free ccap fuel st v c h1]
    · cases hg : st.getLast? with
      | none => rw [dfsCore_nil_eq free ccap fuel st v c h1 hg]
      | some top =>
        by_cases h2 : top ∈ v
        · rw [dfsCore_visited_eq free ccap fuel st v c top h1 hg h2]
          exact ih _ _ _
        · by_cases h3 : free top = true
          · rw [dfsCore_add_eq free ccap fuel st v c top h1 hg h2 h3]
            exact le_trans (Nat.le_succ c) (ih _ _ _)
          · rw [dfsCore_deadend_eq free ccap fuel st v c top h1 hg h2 h3]
            exact ih _ _ _

theorem dfsCore_capped_cnt (free : Cell → Bool) (m M : Nat) (hmM : m ≤ M) :
    ∀ (fuel : Nat) (st v : List Cell) (c : Nat),
      (dfsCore free m fuel st v c).2 =
        max c (min (dfsCore free M fuel st v c).2 m) := by
  intro fuel
  induction fuel with
  | zero =>
    intro st v c
    show c = max c (min c m)
    omega
  | succ fuel ih =>
    intro st v c
    by_cases h1 : m ≤ c
    · rw [dfsCore_cap_eq free m fuel st v c h1]
      have hle : c ≤ (dfsCore free M (fuel + 1) st v c).2 := dfsCore_cnt_le _ _ _ _ _ _
      show c = _
      omega
    · have h1M : ¬ M ≤ c := by omega
      cases hg : st.getLast? with
      | none =>
        rw [dfsCore_nil_eq free m fuel st v c h1 hg, dfsCore_nil_eq free M fuel st v c h1M hg]
        show c = max c (min c m)
        omega
      | some top =>
        by_cases h2 : top ∈ v
        · rw [dfsCore_visited_eq free m fuel st v c top h1 hg h2,
            dfsCore_visited_eq free M fuel st v c top h1M hg h2]
          exact ih _ _ _
        · by_cases h3 : free top = true
          · rw [dfsCore_add_eq free m fuel st v c top h1 hg h2 h3,
              dfsCore_add_eq free M fuel st v c top h1M hg h2 h3, ih _ _ _]
            have hle : c + 1 ≤ (dfsCore free M fuel
                (st.dropLast ++ (dfsNeighbors top).filter fun n => ! decide (n ∈ v ++ [top]))
                (v ++ [top]) (c + 1)).2 := dfsCore_cnt_le _ _ _ _ _ _
            omega
          · rw [dfsCore_deadend_eq free m fuel st v c top h1 hg h2 h3,
              dfsCore_deadend_eq free M fuel st v c top h1M hg h2 h3]
            exact ih _ _ _

theorem eq_nil_of_getLast?_eq_none {α : Type} {l : List α} (h : l.getLast? = none) :
    l = [] := by
  cases l with
  | nil => rfl
  | cons a l =>
    rw [List.getLast?_eq_getLast _ (List.cons_ne_nil a l)] at h
    exact Option.noConfusion h

theorem free_visited_le (free : Cell → Bool)
    (hfree : ∀ x, free x = true → x ∈ Search.boardFinset)
    (v : List Cell) (hnd : v.Nodup) (hv : ∀ x ∈ v, free x = true) : v.length ≤ 800000 := by
  rw [← List.toFinset_card_of_nodup hnd]
  refine le_trans (Finset.card_le_card ?_) Search.boardFinset_card_le
  intro x hx
  exact hfree x (hv x (List.mem_toFinset.mp hx))

theorem dfsCore_run (free : Cell → Bool) (start : Cell)
    (hfree : ∀ x, free x = true → x ∈ Search.boardFinset) :
    ∀ (fuel : Nat) (st v : List Cell) (c : Nat),
      DInv free start st v →
      st.length + 5 * (800001 - v.length) < fuel →
      c ≤ v.length →
      (∀ x, x ∈ (dfsCore free 800005 fuel st v c).1 ↔
        free start = true ∧ ∃ n, Search.PathN free start n x) ∧
      (dfsCore free 800005 fuel st v c).1.Nodup ∧
      (dfsCore free 800005 fuel st v c).2 + v.length =
        c + (dfsCore free 800005 fuel st v c).1.length := by
  intro fuel
  induction fuel with
  | zero =>
    intro st v c _ hfuel _
    exact absurd hfuel (Nat.not_lt_zero _)
  | succ fuel ih =>
    intro st v c inv hfuel hc
    have hvb : v.length ≤ 800000 :=
      free_visited_le free hfree v inv.vNodup fun x hx => (inv.vSound x hx).1
    have hnocap : ¬ (800005 ≤ c) := by omega
    cases hg : st.getLast? with
    | none =>
      rw [dfsCore_nil_eq free 800005 fuel st v c hnocap hg]
      have hst : st = [] := eq_nil_of_getLast?_eq_none hg
      subst hst
      refine ⟨?_, inv.vNodup, rfl⟩
      intro x
      constructor
      · intro hx
        exact ⟨inv.vStart x hx, (inv.vSound x hx).2⟩
      · intro ⟨hfs, n, hp⟩
        induction hp with
        | refl =>
          rcases inv.startIn hfs with h | h
          · exact h
          · exact absurd h (List.not_mem_nil _)
        | step h d hf ihp =>
          rcases inv.closedE _ ihp d hf with h2 | h2
          · exact h2
          · exact absurd h2 (List.not_mem_nil _)
    | some top =>
      have hsplit := Search.getLast?_eq_some_split hg
      have hlen : st.length = st.dropLast.length + 1 := by
        conv_lhs => rw [hsplit]
        rw [List.length_append, List.length_singleton]
      have hsubset : ∀ x ∈ st.dropLast, x ∈ st := by
        intro x hx
        rw [hsplit]
        exact List.mem_append_left _ hx
      have htop : top ∈ st := by
        rw [hsplit]
        exact List.mem_append_right _ (List.mem_singleton.mpr rfl)
      have hmem_cases : ∀ x ∈ st, x ∈ st.dropLast ∨ x = top := by
        intro x hx
        rw [hsplit] at hx
        rcases List.mem_append.mp hx with h | h
        · exact Or.inl h
        · exact Or.inr (List.mem_singleton.mp h)
      by_cases h2 : top ∈ v
      · rw [dfsCore_visited_eq free 800005 fuel st v c top hnocap hg h2]
        refine ih st.dropLast v c ⟨inv.vNodup, inv.vSound, inv.vStart, ?_, ?_, ?_⟩
          (by omega) hc
        · intro x hx
          exact inv.stackCells x (hsubset x hx)
        · intro x hx d hf
          rcases inv.closedE x hx d hf with h | h
          · exact Or.inl h
          · rcases hmem_cases _ h with h3 | h3
            · exact Or.inr h3
            · exact Or.inl (h3 ▸ h2)
        · intro hfs
          rcases inv.startIn hfs with h | h
          · exact Or.inl h
          · rcases hmem_cases _ h with h3 | h3
            · exact Or.inr h3
            · exact Or.inl (h3 ▸ h2)
      · by_cases h3 : free top = true
        · rw [dfsCore_add_eq free 800005 fuel st v c top hnocap hg h2 h3]
          have htopReach : ∃ n, Search.PathN free start n top := by
            rcases inv.stackCells top htop with h | ⟨p, hp, d, hpd⟩
            · refine ⟨0, ?_⟩
              rw [h]
              exact Search.PathN.refl start
            · obtain ⟨n, hn⟩ := (inv.vSound p hp).2
              exact ⟨n + 1, hpd ▸ Search.PathN.step hn d (hpd ▸ h3)⟩
          have htopStart : free start = true := by
            rcases inv.stackCells top htop with h | ⟨p, hp, _, _⟩
            · rw [← h]
              exact h3
            · exact inv.vStart p hp
          have hvnd : (v ++ [top]).Nodup := by
            refine List.Nodup.append inv.vNodup (List.nodup_singleton top) ?_
            intro a ha hat
            rw [List.mem_singleton] at hat
            subst hat
            exact h2 ha
          have hres := ih
            (st.dropLast ++ (dfsNeighbors top).filter fun n => ! decide (n ∈ v ++ [top]))
            (v ++ [top]) (c + 1)
            ⟨hvnd, ?_, ?_, ?_, ?_, ?_⟩ ?_ ?_
          · refine ⟨hres.1, hres.2.1, ?_⟩
            have hcnt := hres.2.2
            have hlv : (v ++ [top]).length = v.length + 1 := by simp
            omega
          · intro x hx
            rcases List.mem_append.mp hx with h | h
            · exact ⟨(inv.vSound x h).1, (inv.vSound x h).2⟩
            · rw [List.mem_singleton] at h
              subst h
              exact ⟨h3, htopReach⟩
          · intro x hx
            rcases List.mem_append.mp hx with h | h
            · exact inv.vStart x h
            · exact htopStart
          · intro x hx
            rcases List.mem_append.mp hx with h | h
            · rcases inv.stackCells x (hsubset x h) with h4 | ⟨p, hp, d, hpd⟩
              · exact Or.inl h4
              · exact Or.inr ⟨p, List.mem_append_left _ hp, d, hpd⟩
            · have hmf := List.mem_filter.mp h
              obtain ⟨d, hd⟩ := dfsNeighbors_mem top x hmf.1
              exact Or.inr ⟨top, List.mem_append_right _ (List.mem_singleton.mpr rfl), d, hd⟩
          · intro x hx d hf
            rcases List.mem_append.mp hx with hxv | hxt
            · rcases inv.closedE x hxv d hf with h4 | h4
              · exact Or.inl (List.mem_append_left _ h4)
              · rcases hmem_cases _ h4 with h5 | h5
                · exact Or.inr (List.mem_append_left _ h5)
                · exact Or.inl (List.mem_append_right _ (by rw [h5]; exact List.mem_singleton.mpr rfl))
            · rw [List.mem_singleton] at hxt
              subst hxt
              by_cases h5 : stepCell x d ∈ v ++ [x]
              · exact Or.inl h5
              · refine Or.inr (List.mem_append_right _ (List.mem_filter.mpr ⟨mem_dfsNeighbors x d, ?_⟩))
                simp [h5]
          · intro hfs
            rcases inv.startIn hfs with h | h
            · exact Or.inl (List.mem_append_left _ h)
            · rcases hmem_cases _ h with h4 | h4
              · exact Or.inr (List.mem_append_left _ h4)
              · exact Or.inl (List.mem_append_right _ (by rw [h4]; exact List.mem_singleton.mpr rfl))
          · have hnd1 : (v ++ [top]).length ≤ 800001 := by
              have := free_visited_le free hfree (v ++ [top]) hvnd ?_
              · simp at this ⊢
                omega
              · intro x hx
                rcases List.mem_append.mp hx with h | h
                · exact (inv.vSound x h).1
                · rw [List.mem_singleton] at h
                  subst h
                  exact h3
            have hfl : ((dfsNeighbors top).filter fun n => ! decide (n ∈ v ++ [top])).length ≤ 4 := by
              have h4 : (dfsNeighbors top).length = 4 := rfl
              have h5 := List.length_filter_le (fun n => ! decide (n ∈ v ++ [top])) (dfsNeighbors top)
              omega
            have hla : (st.dropLast ++ (dfsNeighbors top).filter fun n =>
                ! decide (n ∈ v ++ [top])).length =
                st.dropLast.length + ((dfsNeighbors top).filter fun n =>
                ! decide (n ∈ v ++ [top])).length := by simp
            have hlv : (v ++ [top]).length = v.length + 1 := by simp
            omega
          · have hlv : (v ++ [top]).length = v.length + 1 := by simp
            omega
        · rw [dfsCore_deadend_eq free 800005 fuel st v c top hnocap hg h2 h3]
          refine ih st.dropLast v c ⟨inv.vNodup, inv.vSound, inv.vStart, ?_, ?_, ?_⟩
            (by omega) hc
          · intro x hx
            exact inv.stackCells x (hsubset x hx)
          · intro x hx d hf
            rcases inv.closedE x hx d hf with h | h
            · exact Or.inl h
            · rcases hmem_cases _ h with h4 | h4
              · exact Or.inr h4
              · exfalso
                rw [h4] at hf
                exact h3 hf
          · intro hfs
            rcases inv.startIn hfs with h | h
            · exact Or.inl h
            · rcases hmem_cases _ h with h4 | h4
              · exact Or.inr h4
              · exfalso
                rw [← h4] at h3
                exact h3 hfs

theorem dfs_countFree_mem_board (s : Snake) (c : Cell) (h : countFree s c = true) :
    c ∈ Search.boardFinset := by
  rw [Search.mem_boardFinset]
  unfold countFree at h
  simp only [Bool.and_eq_true, decide_eq_true_eq] at h
  obtain ⟨⟨⟨⟨h1, h2⟩, h3⟩, h4⟩, _⟩ := h
  have h2' : c.x < 1000 := h2
  have h4' : c.y < 800 := h4
  exact ⟨h1, by omega, h3, by omega⟩

theorem dfs_uncapped_spec (s : Snake) (start : Cell) :
    ∃ vis : List Cell, vis.Nodup ∧
      (∀ x, x ∈ vis ↔ countFree s start = true ∧
        ∃ n, Search.PathN (countFree s) start n x) ∧
      (dfsCore (countFree s) 800005 Search.bfsFuel [start] [] 0).2 = vis.length := by
  have hinv : DInv (countFree s) start [start] [] := by
    refine ⟨List.nodup_nil, ?_, ?_, ?_, ?_, ?_⟩
    · intro x hx
      exact absurd hx (List.not_mem_nil x)
    · intro x hx
      exact absurd hx (List.not_mem_nil x)
    · intro x hx
      exact Or.inl (List.mem_singleton.mp hx)
    · intro x hx
      exact absurd hx (List.not_mem_nil x)
    · intro _
      exact Or.inr (List.mem_singleton.mpr rfl)
  have hrun := dfsCore_run (countFree s) start (dfs_countFree_mem_board s) Search.bfsFuel
    [start] [] 0 hinv
    (by simp only [List.length_singleton, List.length_nil]; unfold Search.bfsFuel; omega)
    (by simp)
  refine ⟨_, hrun.2.1, hrun.1, ?_⟩
  have hcnt := hrun.2.2
  have h1 : ([] : List Cell).length = 0 := rfl
  omega

theorem dfs_count_antitone_of_free_mono (s s' : Snake) (start : Cell)
    (himp : ∀ c, countFree s' c = true → countFree s c = true) :
    count_available_space s' start ≤ count_available_space s start := by
  obtain ⟨v1, hnd1, hiff1, he1⟩ := dfs_uncapped_spec s' start
  obtain ⟨v2, hnd2, hiff2, he2⟩ := dfs_uncapped_spec s start
  have hsub : v1.length ≤ v2.length := by
    refine Search.length_le_of_nodup_subset hnd1 hnd2 ?_
    intro x hx
    obtain ⟨hst, n, hp⟩ := (hiff1 x).mp hx
    exact (hiff2 x).mpr ⟨himp start hst, n, Search.PathN_mono himp hp⟩
  unfold count_available_space
  rw [dfsCore_capped_cnt (countFree s') 100 800005 (by omega) Search.bfsFuel [start] [] 0]
  rw [dfsCore_capped_cnt (countFree s) 100 800005 (by omega) Search.bfsFuel [start] [] 0]
  rw [he1] at *
  rw [he2] at *
  omega

end AllagentsDFS

theorem ai_countFree_append (s : Snake) (o : Cell)
    (hx : s.x.length = s.length) (hy : s.y.length = s.length) :
    ∀ c, Ai.countFree (snakeAppendSegment s o) c = true → Ai.countFree s c = true := by
  intro c h
  unfold Ai.countFree at h ⊢
  simp only [snakeAppendSegment] at h
  rw [Bool.and_eq_true] at h ⊢
  obtain ⟨hb, hn⟩ := h
  refine ⟨hb, ?_⟩
  rw [Bool.not_eq_true'] at hn ⊢
  rw [Bool.eq_false_iff]
  intro hA
  rw [List.any_eq_true] at hA
  obtain ⟨i, hi, hpi⟩ := hA
  have hi' : i < s.length := List.mem_range.mp hi
  have hxi : i < s.x.length := by omega
  have hyi : i < s.y.length := by omega
  rw [Bool.eq_false_iff] at hn
  apply hn
  rw [List.any_eq_true]
  refine ⟨i, List.mem_range.mpr (by omega), ?_⟩
  rw [List.getD_append _ _ _ _ hxi, List.getD_append _ _ _ _ hyi]
  exact hpi

theorem reflex_accFree_append (s : Snake) (o : Cell)
    (hx : s.x.length = s.length) (hy : s.y.length = s.length) :
    ∀ c, Reflexagent.accFree (snakeAppendSegment s o) c = true →
      Reflexagent.accFree s c = true := by
  intro c h
  unfold Reflexagent.accFree at h ⊢
  simp only [snakeAppendSegment] at h
  rw [Bool.and_eq_true] at h ⊢
  obtain ⟨hb, hn⟩ := h
  refine ⟨hb, ?_⟩
  rw [Bool.not_eq_true'] at hn ⊢
  rw [Bool.eq_false_iff]
  intro hA
  rw [List.any_eq_true] at hA
  obtain ⟨i, hi, hpi⟩ := hA
  have hi' : 1 ≤ i ∧ i < 1 + (s.length - 1) := List.mem_range'_1.mp hi
  have hxi : i < s.x.length := by omega
  have hyi : i < s.y.length := by omega
  rw [Bool.eq_false_iff] at hn
  apply hn
  rw [List.any_eq_true]
  refine ⟨i, List.mem_range'_1.mpr (by omega), ?_⟩
  have hgx : (s.x ++ [o.x]).getD i 0 = s.x.getD i 0 := List.getD_append _ _ _ _ hxi
  have hgy : (s.y ++ [o.y]).getD i 0 = s.y.getD i 0 := List.getD_append _ _ _ _ hyi
  simp only [hgx, hgy]
  exact hpi

theorem dfs_countFree_append (s : Snake) (o : Cell)
    (hx : s.x.length = s.length) (hy : s.y.length = s.length) :
    ∀ c, AllagentsDFS.countFree (snakeAppendSegment s o) c = true →
      AllagentsDFS.countFree s c = true := by
  intro c h
  unfold AllagentsDFS.countFree at h ⊢
  simp only [snakeAppendSegment] at h
  rw [Bool.and_eq_true] at h ⊢
  obtain ⟨hb, hn⟩ := h
  refine ⟨hb, ?_⟩
  rw [Bool.not_eq_true'] at hn ⊢
  rw [Bool.eq_false_iff]
  intro hA
  rw [List.any_eq_true] at hA
  obtain ⟨i, hi, hpi⟩ := hA
  have hi' : i < s.length - 1 := List.mem_range.mp hi
  have hxi : i < s.x.length := by omega
  have hyi : i < s.y.length := by omega
  rw [Bool.eq_false_iff] at hn
  apply hn
  rw [List.any_eq_true]
  refine ⟨i, List.mem_range.mpr (by omega), ?_⟩
  have hgx : (s.x ++ [o.x]).getD i 0 = s.x.getD i 0 := List.getD_append _ _ _ _ hxi
  have hgy : (s.y ++ [o.y]).getD i 0 = s.y.getD i 0 := List.getD_append _ _ _ _ hyi
  simp only [hgx, hgy]
  exact hpi

/-- C1: counterexample to the claim's literal reading. With a length-1
snake at (440, 400) heading right and the apple one cell to the left,
the true shortest collision-free path over the modelled obstacle set has
length 1 and its unique first step is `left`, yet `_bfs_pathfind`
returns `right` (the reversal first step is excluded from the seeds, and
the returned path right-left-left revisits the head cell). -/
theorem bfs_pathfind_shortest_counterexample :
    Ai.bfs_pathfind bfsCounterSnake bfsCounterApple = some Dir.right ∧
    Search.PathN (Ai.pathFree bfsCounterSnake) (bodyCell bfsCounterSnake 0) 1
      bfsCounterApple ∧
    (∀ d : Dir, stepCell (bodyCell bfsCounterSnake 0) d = bfsCounterApple →
      d = Dir.left) ∧
    Dir.right ≠ Dir.left := by
  refine ⟨by decide, ?_, ?_, by decide⟩
  · have h : bfsCounterApple = stepCell (bodyCell bfsCounterSnake 0) Dir.left := by decide
    rw [h]
    exact Search.PathN.step (Search.PathN.refl _) Dir.left (by decide)
  · intro d h
    revert h
    cases d <;> decide

/-- C1 (amended): `Game._bfs_pathfind` is optimal over its actual search
graph rather than over all collision-free paths from the head. When it
returns a direction `d`, some seed entry recorded with first direction
`d` (a non-reversal, non-colliding first step at depth 1) starts a path
through free cells to the target whose total depth `k` is minimal among
all seeded free paths and satisfies the depth cap `k ≤ 15`; when it
returns `none`, every seeded free path to the target has depth
above 15. -/
theorem bfs_pathfind_constrained_optimal (s : Snake) (target : Cell) :
    (∀ d, Ai.bfs_pathfind s target = some d →
      ∃ k, Search.dreachD (Ai.pathFree s) (Ai.bfs_seeds s) d k target ∧
        (∀ j, Search.dreach (Ai.pathFree s) (Ai.bfs_seeds s) j target → k ≤ j) ∧
        k ≤ 15) ∧
    (Ai.bfs_pathfind s target = none →
      ∀ k, Search.dreach (Ai.pathFree s) (Ai.bfs_seeds s) k target → 15 < k) :=
  Ai.bfs_pathfind_spec s target

/-- Witness for C1's amended theorem at the counterexample
configuration: the returned direction `right` indeed heads a
depth-minimal seeded path (of total depth 3). -/
theorem bfs_pathfind_constrained_optimal_witness :
    ∃ k, Search.dreachD (Ai.pathFree bfsCounterSnake) (Ai.bfs_seeds bfsCounterSnake)
        Dir.right k bfsCounterApple ∧
      (∀ j, Search.dreach (Ai.pathFree bfsCounterSnake) (Ai.bfs_seeds bfsCounterSnake) j
        bfsCounterApple → k ≤ j) ∧ k ≤ 15 :=
  (bfs_pathfind_constrained_optimal bfsCounterSnake bfsCounterApple).1 Dir.right (by decide)

/-- C6: adding one obstacle cell (an extra occupied body cell appended
to a consistent snake) never increases the bounded flood-fill count from
a fixed start, in all three implementations: ai.py's
`_count_available_space` (depth cap 8), reflexagent.py's
`_bfs_accessible_spaces` (count cap 100), and allagents.py's DFS
`count_available_space` (count cap 100). -/
theorem flood_fill_count_antitone (s : Snake) (o : Cell) (start : Cell)
    (hx : s.x.length = s.length) (hy : s.y.length = s.length) :
    Ai.count_available_space (snakeAppendSegment s o) start ≤
      Ai.count_available_space s start ∧
    Reflexagent.bfs_accessible_spaces (snakeAppendSegment s o) start ≤
      Reflexagent.bfs_accessible_spaces s start ∧
    AllagentsDFS.count_available_space (snakeAppendSegment s o) start ≤
      AllagentsDFS.count_available_space s start :=
  ⟨Ai.count_antitone_of_free_mono s _ start (ai_countFree_append s o hx hy),
   Reflexagent.acc_antitone_of_free_mono s _ start (reflex_accFree_append s o hx hy),
   AllagentsDFS.dfs_count_antitone_of_free_mono s _ start (dfs_countFree_append s o hx hy)⟩

/-- Witness for C6 at a concrete configuration. -/
theorem flood_fill_count_antitone_witness :
    boxedSnake.x.length = boxedSnake.length ∧
    boxedSnake.y.length = boxedSnake.length ∧
    (Ai.count_available_space (snakeAppendSegment boxedSnake (Cell.mk 200 200))
        (Cell.mk 480 400) ≤
      Ai.count_available_space boxedSnake (Cell.mk 480 400) ∧
    Reflexagent.bfs_accessible_spaces (snakeAppendSegment boxedSnake (Cell.mk 200 200))
        (Cell.mk 480 400) ≤
      Reflexagent.bfs_accessible_spaces boxedSnake (Cell.mk 480 400) ∧
    AllagentsDFS.count_available_space (snakeAppendSegment boxedSnake (Cell.mk 200 200))
        (Cell.mk 480 400) ≤
      AllagentsDFS.count_available_space boxedSnake (Cell.mk 480 400)) :=
  ⟨by decide, by decide,
    flood_fill_count_antitone boxedSnake (Cell.mk 200 200) (Cell.mk 480 400)
      (by decide) (by decide)⟩

/-- C7: counterexample to the claim's fallback clause. With the head
boxed into the corner (walls left and above, body right and below) the
apple is unreachable, but `smart_agent_bfs` returns its no-safe-moves
early exit (keeping the current direction) instead of falling back to
the safety-scoring agent: `_bfs_pathfind` is never called. -/
theorem smart_agent_no_fallback_counterexample :
    (∀ n, ¬ Search.PathN (Ai.pathFree boxedSnake) (bodyCell boxedSnake 0) (n + 1)
      boxedApple) ∧
    Ai.smart_agent_bfs boxedSnake boxedApple = Ai.SmartOutcome.noSafeMoves ∧
    Ai.SmartOutcome.noSafeMoves ≠ Ai.SmartOutcome.fallbackToSafety := by
  refine ⟨?_, by decide, by decide⟩
  intro n hp
  rcases Search.PathN_first_step hp with ⟨hn, _⟩ | ⟨d, m, hfd, _, _⟩
  · exact Nat.succ_ne_zero n hn
  · revert hfd
    cases d <;> decide

/-- C7 (amended): when the apple is unreachable from the head through
free cells, `_bfs_pathfind` returns `none` (never a direction), and
`smart_agent_bfs` handles that locally: it falls back to the
safety-scoring agent when at least one valid first move exists, and
otherwise exits early with no safe moves (without consulting the
pathfinder). -/
theorem bfs_unreachable_fallback (s : Snake) (apple : Cell)
    (h : ∀ n, ¬ Search.PathN (Ai.pathFree s) (bodyCell s 0) (n + 1) apple) :
    Ai.bfs_pathfind s apple = none ∧
    Ai.smart_agent_bfs s apple =
      (if (Ai.valid_directions s).isEmpty then Ai.SmartOutcome.noSafeMoves
       else Ai.SmartOutcome.fallbackToSafety) :=
  Ai.smart_agent_bfs_fallback s apple h

/-- Witness for C7's amended theorem at the boxed-in configuration. -/
theorem bfs_unreachable_fallback_witness :
    Ai.bfs_pathfind boxedSnake boxedApple = none ∧
    Ai.smart_agent_bfs boxedSnake boxedApple =
      (if (Ai.valid_directions boxedSnake).isEmpty then Ai.SmartOutcome.noSafeMoves
       else Ai.SmartOutcome.fallbackToSafety) :=
  bfs_unreachable_fallback boxedSnake boxedApple (by
    intro n hp
    rcases Search.PathN_first_step hp with ⟨hn, _⟩ | ⟨d, m, hfd, _, _⟩
    · exact Nat.succ_ne_zero n hn
    · revert hfd
      cases d <;> decide)

end SnakeSpec
